import Mathlib

/-!
Verification of the `bufferpool` Rust crate (pnathan/bufferpool).

This file shallowly embeds the core data structures and operations of the
crate into Lean:

* `PageFrame`   — `framepool::PageFrame<T>` (data, pin count, dirty flag);
* `UniqueStack` — `unique_stack::UniqueStack<T>` (the recency tracker);
* `KMap`        — a model of `std::collections::HashMap<u64, _>` as an
                  association list with insert-replaces semantics;
* `MemPool`     — `framepool::MemPool<T>`;
* `FramePoolOps`— the `framepool::FramePool<T>` trait, as a record of pure
                  state-passing functions over an abstract store state `σ`;
* `BufferPool`  — `bufferpool::BufferPool<T>` with its public operations
                  `get_page`, `put_page`, `sync_index`, `flush_all`,
                  `ensure_allocation`, plus the two evictors and the
                  `SlabMapper` built on top.

Rust `u64`/`usize` indices are modeled as `Nat` (the code never exercises
overflow), fallible calls return `Except`, and the `&mut` state threading of
Rust becomes explicit state passing.  Vector indexing `v[i]` is modeled as
`List.getD i none`; the out-of-range case (a Rust panic) is unreachable under
the pool's well-formedness invariant proved below.  Rust panics on map
indexing (`map[&k]` with `k` absent, `Option::unwrap` of `None`) are modeled
as early `None`/`error` returns; these branches are likewise unreachable
under the invariant.
-/

set_option autoImplicit false

namespace Bufferpool

/-- `framepool::PageFrame<T>`: user data plus pin counter and dirty flag.
The Rust mutex only guards interior mutability and has no pure content. -/
structure PageFrame (α : Type) where
  data : α
  pins : Nat
  dirty : Bool
  deriving DecidableEq

/-- `PageFrame::is_pinned`: `pins > 0`. -/
def PageFrame.is_pinned {α : Type} (f : PageFrame α) : Bool := f.pins > 0

/-- `framepool::PageFrame::new_with_arc`: fresh frame, unpinned and clean. -/
def PageFrame.new_with_arc {α : Type} (d : α) : PageFrame α :=
  { data := d, pins := 0, dirty := false }

/-- `unique_stack::UniqueStack<u64>`: the recency tracker.  The Rust struct
keeps a `Vec` for order plus a `HashSet` mirroring its members; the set is
derived state, so the model keeps only the order (bottom = least recent
first, matching `Vec` indexing). -/
structure UniqueStack where
  order : List Nat
  deriving DecidableEq

/-- `UniqueStack::new`. -/
def UniqueStack.new : UniqueStack := ⟨[]⟩

/-- `UniqueStack::push`: remove an existing occurrence, then append on top. -/
def UniqueStack.push (s : UniqueStack) (x : Nat) : UniqueStack :=
  ⟨(if x ∈ s.order then s.order.erase x else s.order) ++ [x]⟩

/-- `UniqueStack::delete`: remove the item if present. -/
def UniqueStack.delete (s : UniqueStack) (x : Nat) : UniqueStack :=
  ⟨s.order.erase x⟩

/-- `UniqueStack::len`. -/
def UniqueStack.len (s : UniqueStack) : Nat := s.order.length

/-! ### A model of `HashMap<u64, β>`

An association list whose `insert` replaces the entry when the key is
present (as `HashMap::insert` does) and appends otherwise.  Iteration order
of a `HashMap` is unspecified; the list order of this model is one concrete
refinement of it. -/

/-- Association-list model of `std::collections::HashMap<u64, β>`. -/
abbrev KMap (β : Type) : Type := List (Nat × β)

namespace KMap

variable {β : Type}

/-- The empty map (`HashMap::new`). -/
def empty : KMap β := []

/-- `HashMap::get` / `contains_key`: first entry with the key. -/
def find : KMap β → Nat → Option β
  | [], _ => none
  | e :: es, k => if e.1 = k then some e.2 else find es k

/-- `HashMap::insert`: replace the entry if present, else add it. -/
def insert (m : KMap β) (k : Nat) (v : β) : KMap β :=
  if (find m k).isSome then m.map (fun e => if e.1 = k then (k, v) else e)
  else m ++ [(k, v)]

/-- `HashMap::remove`. -/
def eraseKey (m : KMap β) (k : Nat) : KMap β :=
  m.filter (fun e => decide (e.1 ≠ k))

/-- The keys of the map. -/
def keys (m : KMap β) : List Nat := m.map Prod.fst

/-- `HashMap::len` (assuming distinct keys, which `insert` maintains). -/
def size (m : KMap β) : Nat := m.length

end KMap

/-! ### The backing store -/

/-- The `framepool::FramePool<T>` trait: a backing store with abstract
state `σ`, threaded explicitly.  Each Rust `&mut self` method becomes a
function returning its result together with the successor state. -/
structure FramePoolOps (σ α : Type) where
  get_frame_ref : σ → Nat → Except String α × σ
  put_frame : σ → Nat → α → Except String Unit × σ
  resize : σ → Nat → Except String Unit × σ
  size : σ → Nat

/-- `framepool::MemPool<T>`: `HashMap<u64, Option<PageFrame<T>>>`.  Only the
data content of a stored frame is observable through the trait, so the map
stores `Option α` (`none` = allocated but never written). -/
abbrev MemPool (α : Type) : Type := KMap (Option α)

/-- `MemPool::get_frame_ref`: missing key, empty slot, or the stored data. -/
def MemPool.get_frame_ref {α : Type} (m : MemPool α) (k : Nat) :
    Except String α × MemPool α :=
  (match KMap.find m k with
   | none => .error "No such frame"
   | some none => .error "Frame slot exists but is empty"
   | some (some a) => .ok a, m)

/-- `MemPool::put_frame`: always succeeds, inserting or replacing. -/
def MemPool.put_frame {α : Type} (m : MemPool α) (k : Nat) (a : α) :
    Except String Unit × MemPool α :=
  (.ok (), KMap.insert m k (some a))

/-- `MemPool::size`: number of keys. -/
def MemPool.size {α : Type} (m : MemPool α) : Nat := m.length

/-- `MemPool::resize(count)`: insert `None` at keys `old_sz + i` for
`i < count` (`old_sz` computed once, before the loop). -/
def MemPool.resize {α : Type} (m : MemPool α) (count : Nat) :
    Except String Unit × MemPool α :=
  (.ok (), (List.range count).foldl
    (fun acc i => KMap.insert acc (MemPool.size m + i) none) m)

/-- The `FramePool` instance for `MemPool`. -/
def memOps (α : Type) : FramePoolOps (MemPool α) α where
  get_frame_ref := MemPool.get_frame_ref
  put_frame := MemPool.put_frame
  resize := MemPool.resize
  size := MemPool.size

/-! ### Eviction policies -/

/-- `bufferpool::BufferPoolErrors`. -/
inductive BufferPoolErrors
  | NoEvictablePage
  | NoPageAvailable
  deriving DecidableEq

/-- Scan of `bottom_evictor`: walk the recency order (least recent first)
and return the first slot that is occupied by an unpinned frame. -/
def bottomScan {α : Type} (pages : List (Option (PageFrame α))) :
    List Nat → Except BufferPoolErrors Nat
  | [] => .error .NoEvictablePage
  | i :: rest =>
    match pages.getD i none with
    | none => bottomScan pages rest
    | some page =>
      if page.is_pinned then bottomScan pages rest else .ok i

/-- `bufferpool::bottom_evictor`. -/
def bottom_evictor {α : Type} (pages : List (Option (PageFrame α)))
    (lru : UniqueStack) : Except BufferPoolErrors Nat :=
  bottomScan pages lru.order

/-- Loop of `random_evictor`: `fuel` remaining iterations, `t` the current
trial counter indexing the stream of random draws. -/
def randomScan {α : Type} (pages : List (Option (PageFrame α)))
    (draws : Nat → Nat) : Nat → Nat → Except BufferPoolErrors Nat
  | 0, _ => .error .NoEvictablePage
  | fuel + 1, t =>
    match pages.getD (draws t) none with
    | none => randomScan pages draws fuel (t + 1)
    | some page =>
      if page.is_pinned then randomScan pages draws fuel (t + 1)
      else .ok (draws t)

/-- `bufferpool::random_evictor`, with the thread-local RNG modeled as a
stream `draws` of values.  The Rust loop `while trials <= len` runs for
trial counters `0, 1, …, len`, i.e. `len + 1` iterations. -/
def random_evictor {α : Type} (pages : List (Option (PageFrame α)))
    (draws : Nat → Nat) : Except BufferPoolErrors Nat :=
  randomScan pages draws (pages.length + 1) 0

/-! ### The buffer pool -/

/-- `bufferpool::BufferPool<T>` (the evictor function and the backing-store
reference are passed to each operation instead of being stored). -/
structure BufferPool (α : Type) where
  size : Nat
  pages : List (Option (PageFrame α))
  buf2frame : KMap Nat
  frame2buf : KMap Nat
  lru : UniqueStack
  deriving DecidableEq

/-- The type of eviction policies (`EvictorFn<T>`). -/
def EvictorFn (α : Type) : Type :=
  List (Option (PageFrame α)) → UniqueStack → Except BufferPoolErrors Nat

/-- `BufferPool::new`: `size` empty slots, empty maps, empty tracker. -/
def BufferPool.new (α : Type) (size : Nat) : BufferPool α :=
  { size := size
    pages := List.replicate size none
    buf2frame := KMap.empty
    frame2buf := KMap.empty
    lru := UniqueStack.new }

/-- The eviction block of `BufferPool::get_page` (lines 232–256): pick a
victim, write it back if dirty, clear the slot, both maps, and the tracker.
`error bs` models an early `None` return from `get_page` with the cache
untouched (the store state may have advanced inside a failed `put_frame`).
The `none` fallbacks for the victim's slot and map entry model Rust panics
(`unwrap`, `buf2frame[&victim]`) that the invariant proves unreachable. -/
def evictStep {σ α : Type} (fp : FramePoolOps σ α) (ev : EvictorFn α)
    (bs : σ) (p : BufferPool α) : Except σ (BufferPool α × σ) :=
  match ev p.pages p.lru with
  | .error _ => .error bs
  | .ok victim =>
    match p.pages.getD victim none with
    | none => .error bs
    | some vpage =>
      match KMap.find p.buf2frame victim with
      | none => .error bs
      | some vfid =>
        let clear : BufferPool α :=
          { p with pages := p.pages.set victim none
                   buf2frame := KMap.eraseKey p.buf2frame victim
                   frame2buf := KMap.eraseKey p.frame2buf vfid
                   lru := p.lru.delete victim }
        if vpage.dirty then
          match fp.put_frame bs vfid vpage.data with
          | (.error _, bs1) => .error bs1
          | (.ok _, bs1) => .ok (clear, bs1)
        else .ok (clear, bs)

/-- `Vec::iter().position(|x| x.is_none())`: index of the first empty slot. -/
def firstNone {α : Type} : List (Option (PageFrame α)) → Option Nat
  | [] => none
  | none :: _ => some 0
  | some _ :: rest => (firstNone rest).map (· + 1)

/-- The tail of `BufferPool::get_page` (lines 270–277): look the frame up in
`frame2buf`, push its slot on the recency tracker, and return the slot's
content.  The `none` branch mirrors the Rust `None` arm ("this should be an
assert tbh"). -/
def finishGet {σ α : Type} (bs : σ) (p : BufferPool α) (fid : Nat) :
    Option (PageFrame α) × BufferPool α × σ :=
  match KMap.find p.frame2buf fid with
  | none => (none, p, bs)
  | some b => (p.pages.getD b none, { p with lru := p.lru.push b }, bs)

/-- The load part of the miss path of `BufferPool::get_page` (lines
258–268 and the final hand-out): find an empty slot, load the frame from
the backing store, install it in both maps, push the recency tracker. -/
def loadStep {σ α : Type} (fp : FramePoolOps σ α) (bs : σ)
    (p : BufferPool α) (fid : Nat) : Option (PageFrame α) × BufferPool α × σ :=
  match firstNone p.pages with
  | none => (none, p, bs)
  | some target =>
    match fp.get_frame_ref bs fid with
    | (.error _, bs2) => (none, p, bs2)
    | (.ok d, bs2) =>
      finishGet bs2
        { p with pages := p.pages.set target (some (PageFrame.new_with_arc d))
                 buf2frame := KMap.insert p.buf2frame target fid
                 frame2buf := KMap.insert p.frame2buf fid target } fid

/-- `BufferPool::get_page`. -/
def get_page {σ α : Type} (fp : FramePoolOps σ α) (ev : EvictorFn α)
    (bs : σ) (p : BufferPool α) (fid : Nat) :
    Option (PageFrame α) × BufferPool α × σ :=
  if fid > fp.size bs then (none, p, bs)
  else if (KMap.find p.frame2buf fid).isSome then finishGet bs p fid
  else
    match (if KMap.size p.frame2buf = p.size
           then evictStep fp ev bs p else .ok (p, bs)) with
    | .error bs1 => (none, p, bs1)
    | .ok (p1, bs1) => loadStep fp bs1 p1 fid

/-- `BufferPool::put_page`: `get_page` then `with_data(|d| *d = data)`.
`framepool::PageFrame::with_data` replaces the data and sets the dirty
flag; the mutation acts on the slot the returned reference points at. -/
def put_page {σ α : Type} (fp : FramePoolOps σ α) (ev : EvictorFn α)
    (bs : σ) (p : BufferPool α) (fid : Nat) (d : α) :
    Except BufferPoolErrors Unit × BufferPool α × σ :=
  match get_page fp ev bs p fid with
  | (none, p1, bs1) => (.error .NoPageAvailable, p1, bs1)
  | (some _, p1, bs1) =>
    match KMap.find p1.frame2buf fid with
    | none => (.ok (), p1, bs1)
    | some sid =>
      match p1.pages.getD sid none with
      | none => (.ok (), p1, bs1)
      | some fr =>
        (.ok (), { p1 with
          pages := p1.pages.set sid (some { fr with data := d, dirty := true }) }, bs1)

/-- `BufferPool::sync_index`: write a cached dirty frame back.  Note that
the source does not clear the dirty flag here (only `flush_all` does). -/
def sync_index {σ α : Type} (fp : FramePoolOps σ α) (bs : σ)
    (p : BufferPool α) (fid : Nat) : Except String Unit × BufferPool α × σ :=
  match KMap.find p.frame2buf fid with
  | none => (.ok (), p, bs)
  | some sid =>
    match p.pages.getD sid none with
    | none => (.error "unable to access index", p, bs)
    | some page =>
      if page.dirty then
        match fp.put_frame bs fid page.data with
        | (.error e, bs1) => (.error e, p, bs1)
        | (.ok _, bs1) => (.ok (), p, bs1)
      else (.ok (), p, bs)

/-- Loop body of `BufferPool::flush_all` over a snapshot of the
`buf2frame` entries (the Rust code iterates `self.buf2frame.clone()`).
The first failing `put_frame` aborts via `?`. -/
def flushGo {σ α : Type} (fp : FramePoolOps σ α) (bs : σ) (p : BufferPool α) :
    List (Nat × Nat) → Except String Unit × BufferPool α × σ
  | [] => (.ok (), p, bs)
  | (s, f) :: rest =>
    match p.pages.getD s none with
    | none => flushGo fp bs p rest
    | some page =>
      if page.dirty then
        match fp.put_frame bs f page.data with
        | (.error e, bs1) => (.error e, p, bs1)
        | (.ok _, bs1) =>
          flushGo fp bs1
            { p with pages := p.pages.set s (some { page with dirty := false }) } rest
      else flushGo fp bs p rest

/-- `BufferPool::flush_all`. -/
def flush_all {σ α : Type} (fp : FramePoolOps σ α) (bs : σ) (p : BufferPool α) :
    Except String Unit × BufferPool α × σ :=
  flushGo fp bs p p.buf2frame

/-- `BufferPool::ensure_allocation`: delegate to the store's `resize`. -/
def ensure_allocation {σ α : Type} (fp : FramePoolOps σ α) (bs : σ)
    (p : BufferPool α) (n : Nat) : Except String Unit × BufferPool α × σ :=
  let (r, bs1) := fp.resize bs n
  (r, p, bs1)

/-! ### Operation sequences -/

/-- One public operation on a `BufferPool`. -/
inductive Op (α : Type) where
  | get (fid : Nat)
  | put (fid : Nat) (d : α)
  | sync (fid : Nat)
  | flush
  | ensure (n : Nat)

/-- Apply one public operation, dropping its return value. -/
def applyOp {σ α : Type} (fp : FramePoolOps σ α) (ev : EvictorFn α)
    (st : BufferPool α × σ) : Op α → BufferPool α × σ
  | .get fid => (get_page fp ev st.2 st.1 fid).2
  | .put fid d => (put_page fp ev st.2 st.1 fid d).2
  | .sync fid => (sync_index fp st.2 st.1 fid).2
  | .flush => (flush_all fp st.2 st.1).2
  | .ensure n => (ensure_allocation fp st.2 st.1 n).2

/-- Run a sequence of public operations. -/
def runOps {σ α : Type} (fp : FramePoolOps σ α) (ev : EvictorFn α)
    (st : BufferPool α × σ) (ops : List (Op α)) : BufferPool α × σ :=
  ops.foldl (applyOp fp ev) st

/-! ### Iteration (`BufferPoolIterator`)

`BufferPoolIterator::next` yields `get_page(current).map(|p| p.data())` and
stops at `total_size`; collecting the iterator stops at the first `None`,
i.e. at the first frame id whose load fails. -/

/-- Collect the iterator from `cur` up to `total` (the backing size captured
by `into_iter`), stopping early when `get_page` returns `None`. -/
def iterRun {σ α : Type} (fp : FramePoolOps σ α) (ev : EvictorFn α)
    (bs : σ) (p : BufferPool α) (cur total : Nat) : List α :=
  if _h : total ≤ cur then []
  else
    match get_page fp ev bs p cur with
    | (none, _, _) => []
    | (some pg, p1, bs1) => pg.data :: iterRun fp ev bs1 p1 (cur + 1) total
  termination_by total - cur

/-! ### `SlabMapper` -/

/-- `SlabMapper::flush` phase 1: write `seq[i * stride]` to backing frame
`i` for each `i < required`; the first failure aborts. -/
def slabPhase1 {σ α : Type} (fp : FramePoolOps σ α) (stride : Nat)
    (seq : List α) (bs : σ) : List Nat → Except String σ
  | [] => .ok bs
  | i :: rest =>
    match seq.get? (i * stride) with
    | none => slabPhase1 fp stride seq bs rest
    | some d =>
      match fp.put_frame bs i d with
      | (.error e, _) => .error e
      | (.ok _, bs1) => slabPhase1 fp stride seq bs1 rest

/-- `SlabMapper::flush` phase 2: `put_page` each stride-boundary element,
collecting the indices of failed updates. -/
def slabPhase2 {σ α : Type} (fp : FramePoolOps σ α) (stride : Nat)
    (seq : List α) (bs : σ) (p : BufferPool α) :
    List Nat → List Nat × BufferPool α × σ
  | [] => ([], p, bs)
  | i :: rest =>
    match seq.get? (i * stride) with
    | none => slabPhase2 fp stride seq bs p rest
    | some d =>
      match put_page fp bottom_evictor bs p i d with
      | (.error _, p1, bs1) =>
        let (errs, p2, bs2) := slabPhase2 fp stride seq bs1 p1 rest
        (i :: errs, p2, bs2)
      | (.ok _, p1, bs1) => slabPhase2 fp stride seq bs1 p1 rest

/-- `SlabMapper::flush` (`SlabMapper::new` installs `bottom_evictor`). -/
def slabFlush {σ α : Type} (fp : FramePoolOps σ α) (stride : Nat)
    (bs : σ) (p : BufferPool α) (seq : List α) :
    Except String Unit × BufferPool α × σ :=
  if seq.isEmpty then (.ok (), p, bs)
  else
    let required := (seq.length + stride - 1) / stride
    match ensure_allocation fp bs p required with
    | (.error e, p1, bs1) => (.error e, p1, bs1)
    | (.ok _, p1, bs1) =>
      match slabPhase1 fp stride seq bs1 (List.range required) with
      | .error e => (.error e, p1, bs1)
      | .ok bs2 =>
        match slabPhase2 fp stride seq bs2 p1 (List.range required) with
        | ([], p2, bs3) => (.ok (), p2, bs3)
        | (_ :: _, p2, bs3) => (.error "BufferPool updates failed", p2, bs3)

/-- `SlabMapper::get`: fetch the frame at `idx / stride` and clone its data. -/
def slabGet {σ α : Type} (fp : FramePoolOps σ α) (bs : σ) (p : BufferPool α)
    (stride idx : Nat) : Option α × BufferPool α × σ :=
  let r := get_page fp bottom_evictor bs p (idx / stride)
  (r.1.map PageFrame.data, r.2)

/-! ### Well-formedness invariant -/

/-- The internal well-formedness invariant of a `BufferPool`, strong enough
to be preserved by every public operation; claims C1 and others are read off
from it.  All components are decidable on concrete states. -/
def Wf {α : Type} (p : BufferPool α) : Prop :=
  p.pages.length = p.size ∧
  (KMap.keys p.buf2frame).Nodup ∧
  (KMap.keys p.frame2buf).Nodup ∧
  (∀ e ∈ p.buf2frame, KMap.find p.frame2buf e.2 = some e.1) ∧
  (∀ e ∈ p.frame2buf, KMap.find p.buf2frame e.2 = some e.1) ∧
  (∀ e ∈ p.buf2frame, e.1 < p.size) ∧
  (∀ e ∈ p.buf2frame, (p.pages.getD e.1 none).isSome) ∧
  (∀ s < p.size, KMap.find p.buf2frame s = none → p.pages.getD s none = none) ∧
  KMap.size p.buf2frame = KMap.size p.frame2buf ∧
  KMap.size p.buf2frame ≤ p.size ∧
  (∀ s ∈ p.lru.order, (KMap.find p.buf2frame s).isSome) ∧
  (∀ e ∈ p.buf2frame, e.1 ∈ p.lru.order) ∧
  p.lru.order.Nodup

instance {α : Type} [DecidableEq α] (p : BufferPool α) : Decidable (Wf p) := by
  unfold Wf
  infer_instance

/-- A slot is evictable when it is occupied by an unpinned frame. -/
def evictable {α : Type} (pages : List (Option (PageFrame α))) (i : Nat) :
    Bool :=
  match pages.getD i none with
  | none => false
  | some pg => !pg.is_pinned

/-- A backing store whose writes fail exactly at frame id 0; used to
exercise `flush_all` failure paths. -/
def failZeroOps : FramePoolOps Unit Nat where
  get_frame_ref := fun u _ => (.error "no reads", u)
  put_frame := fun u k _ => (if k = 0 then .error "boom" else .ok (), u)
  resize := fun u _ => (.ok (), u)
  size := fun _ => 2

/-- The invariant claimed by the specification, read off `Wf`: the two maps
are inverse bijections of equal cardinality at most the capacity, and the
recency tracker holds exactly the keys of the slot-to-frame map, without
duplicates. -/
def ClaimInv {α : Type} (p : BufferPool α) : Prop :=
  (∀ s f, KMap.find p.buf2frame s = some f ↔ KMap.find p.frame2buf f = some s) ∧
  KMap.size p.buf2frame = KMap.size p.frame2buf ∧
  KMap.size p.buf2frame ≤ p.size ∧
  (∀ s, s ∈ p.lru.order ↔ (KMap.find p.buf2frame s).isSome) ∧
  p.lru.order.Nodup

/-- Every occupied slot holds an unpinned frame. -/
def Unpinned {α : Type} (p : BufferPool α) : Prop :=
  ∀ sid pg, p.pages.getD sid none = some pg → pg.pins = 0

/-- The cache agrees with the backing store: every cached frame's data
equals the store's content for its frame id. -/
def Coherent {α : Type} (p : BufferPool α) (ms : MemPool α) : Prop :=
  ∀ fid sid, KMap.find p.frame2buf fid = some sid →
    ∀ pg, p.pages.getD sid none = some pg →
      KMap.find ms fid = some (some pg.data)

/-- Executable check for `Unpinned`, for concrete witnesses. -/
def unpinnedCheck {α : Type} (p : BufferPool α) : Bool :=
  p.pages.all (fun o =>
    match o with
    | none => true
    | some pg => pg.pins == 0)

/-- Executable check for `Coherent`, for concrete witnesses. -/
def coherentCheck {α : Type} [DecidableEq α] (p : BufferPool α)
    (ms : MemPool α) : Bool :=
  p.frame2buf.all (fun e =>
    match p.pages.getD e.2 none with
    | none => true
    | some pg => decide (KMap.find ms e.1 = some (some pg.data)))

/-! ### Lemmas about `KMap` -/

namespace KMap

variable {β : Type}

@[simp] theorem find_nil (k : Nat) : find ([] : KMap β) k = none := rfl

@[simp] theorem find_cons (e : Nat × β) (es : KMap β) (k : Nat) :
    find (e :: es) k = if e.1 = k then some e.2 else find es k := rfl

theorem find_eq_some_mem {m : KMap β} {k : Nat} {v : β}
    (h : find m k = some v) : (k, v) ∈ m := by
  induction m with
  | nil => simp at h
  | cons e es ih =>
    rw [find_cons] at h
    by_cases hk : e.1 = k
    · rw [if_pos hk] at h
      obtain ⟨e1, e2⟩ := e
      cases h
      cases hk
      exact List.mem_cons_self _ _
    · rw [if_neg hk] at h
      exact List.mem_cons_of_mem _ (ih h)

theorem find_mem_keys {m : KMap β} {k : Nat} :
    (find m k).isSome ↔ k ∈ keys m := by
  induction m with
  | nil => simp [keys]
  | cons e es ih =>
    rw [keys, List.map_cons, List.mem_cons]
    by_cases hk : e.1 = k
    · rw [find_cons, if_pos hk]
      exact ⟨fun _ => Or.inl hk.symm, fun _ => rfl⟩
    · rw [find_cons, if_neg hk, ih]
      constructor
      · exact Or.inr
      · rintro (h | h)
        · exact absurd h.symm hk
        · exact h

theorem isSome_false_none {γ : Type} {o : Option γ}
    (h : o.isSome = false) : o = none := by
  cases o with
  | none => rfl
  | some v => cases h

theorem not_isSome_none {γ : Type} {o : Option γ}
    (h : ¬ o.isSome = true) : o = none := by
  cases o with
  | none => rfl
  | some v => exact absurd rfl h

theorem find_eq_none_iff {m : KMap β} {k : Nat} :
    find m k = none ↔ k ∉ keys m := by
  rw [← find_mem_keys]
  cases find m k <;> simp

theorem mem_find {m : KMap β} (hn : (keys m).Nodup) {k : Nat} {v : β}
    (h : (k, v) ∈ m) : find m k = some v := by
  induction m with
  | nil => simp at h
  | cons e es ih =>
    rw [keys, List.map_cons, List.nodup_cons] at hn
    rcases List.mem_cons.1 h with h | h
    · subst h; simp
    · have hek : e.1 ≠ k := by
        intro he
        exact hn.1 (he ▸ List.mem_map.2 ⟨(k, v), h, rfl⟩)
      rw [find_cons, if_neg hek]
      exact ih hn.2 h

/-- The replacement map used by `insert` fixes any list without the key. -/
theorem map_replace_of_find_none {es : KMap β} {k : Nat} (v : β)
    (hn : find es k = none) :
    es.map (fun e => if e.1 = k then (k, v) else e) = es := by
  induction es with
  | nil => rfl
  | cons e es ih =>
    rw [find_cons] at hn
    by_cases hk : e.1 = k
    · rw [if_pos hk] at hn; cases hn
    · rw [if_neg hk] at hn
      rw [List.map_cons, if_neg hk, ih hn]

theorem find_insert_self (m : KMap β) (k : Nat) (v : β) :
    find (insert m k v) k = some v := by
  unfold insert
  split
  · rename_i hs
    induction m with
    | nil => simp at hs
    | cons e es ih =>
      rw [find_cons] at hs
      by_cases hk : e.1 = k
      · rw [List.map_cons, if_pos hk, find_cons, if_pos rfl]
      · rw [if_neg hk] at hs
        rw [List.map_cons, if_neg hk, find_cons, if_neg hk]
        exact ih hs
  · rename_i hs
    replace hs : find m k = none := not_isSome_none hs
    induction m with
    | nil => simp
    | cons e es ih =>
      rw [find_cons] at hs
      by_cases hk : e.1 = k
      · rw [if_pos hk] at hs; cases hs
      · rw [if_neg hk] at hs
        rw [List.cons_append, find_cons, if_neg hk]
        exact ih hs

/-- The replacement map used by `insert` only affects lookups at `k`. -/
theorem find_map_replace_ne (m : KMap β) {k k' : Nat} (v : β) (h : k' ≠ k) :
    find (m.map (fun e => if e.1 = k then (k, v) else e)) k' = find m k' := by
  induction m with
  | nil => rfl
  | cons e es ih =>
    rw [List.map_cons, find_cons, find_cons]
    by_cases hk : e.1 = k
    · rw [if_pos hk,
        if_neg (show ¬((k, v).1 = k') from fun hh => h hh.symm),
        if_neg (show ¬(e.1 = k') from fun hek => h (hek.symm.trans hk)), ih]
    · rw [if_neg hk]
      by_cases hk' : e.1 = k'
      · rw [if_pos hk', if_pos hk']
      · rw [if_neg hk', if_neg hk', ih]

theorem find_append_single (m : KMap β) {k k' : Nat} (v : β) (h : k' ≠ k) :
    find (m ++ [(k, v)]) k' = find m k' := by
  induction m with
  | nil => simp [Ne.symm h]
  | cons e es ih =>
    rw [List.cons_append, find_cons, find_cons]
    by_cases hk' : e.1 = k'
    · rw [if_pos hk', if_pos hk']
    · rw [if_neg hk', if_neg hk', ih]

theorem find_insert_ne (m : KMap β) {k k' : Nat} (v : β) (h : k' ≠ k) :
    find (insert m k v) k' = find m k' := by
  unfold insert
  split
  · exact find_map_replace_ne m v h
  · exact find_append_single m v h

theorem length_insert_of_isSome {m : KMap β} {k : Nat} (v : β)
    (h : (find m k).isSome) : (insert m k v).length = m.length := by
  unfold insert
  rw [if_pos h, List.length_map]

theorem insert_of_none {m : KMap β} {k : Nat} (v : β)
    (h : find m k = none) : insert m k v = m ++ [(k, v)] := by
  unfold insert
  split
  · rename_i hs
    rw [h] at hs
    cases hs
  · rfl

theorem length_insert_of_none {m : KMap β} {k : Nat} (v : β)
    (h : find m k = none) : (insert m k v).length = m.length + 1 := by
  rw [insert_of_none v h, List.length_append, List.length_cons,
    List.length_nil]

theorem keys_map_replace (m : KMap β) (k : Nat) (v : β) :
    keys (m.map (fun e => if e.1 = k then (k, v) else e)) = keys m := by
  unfold keys
  rw [List.map_map]
  apply List.map_congr_left
  intro e _
  by_cases hk : e.1 = k <;> simp [hk]

theorem keys_insert_nodup {m : KMap β} (hn : (keys m).Nodup) (k : Nat)
    (v : β) : (keys (insert m k v)).Nodup := by
  unfold insert
  split
  · rw [keys_map_replace]; exact hn
  · rename_i hs
    replace hs : find m k = none := not_isSome_none hs
    have hk : k ∉ keys m := find_eq_none_iff.1 hs
    unfold keys at hk ⊢
    rw [List.map_append]
    refine List.Nodup.append hn (List.nodup_singleton _) ?_
    intro a ha hb
    rw [List.map_singleton, List.mem_singleton] at hb
    have hak : a = k := hb
    exact hk (hak ▸ ha)

theorem insert_self_eq {m : KMap β} (hn : (keys m).Nodup) {k : Nat} {v : β}
    (h : find m k = some v) : insert m k v = m := by
  unfold insert
  have hcond : (find m k).isSome = true := by rw [h]; rfl
  rw [if_pos hcond]
  clear hcond
  induction m with
  | nil => rfl
  | cons e es ih =>
    rw [keys, List.map_cons, List.nodup_cons] at hn
    rw [find_cons] at h
    by_cases hk : e.1 = k
    · rw [if_pos hk] at h
      have he : e = (k, v) := by
        obtain ⟨e1, e2⟩ := e
        cases h
        cases hk
        rfl
      subst he
      rw [List.map_cons, if_pos rfl]
      have hke : find es k = none := by
        rw [find_eq_none_iff]
        simpa [keys] using hn.1
      rw [map_replace_of_find_none v hke]
    · rw [if_neg hk] at h
      rw [List.map_cons, if_neg hk, ih hn.2 h]

theorem find_eraseKey_self (m : KMap β) (k : Nat) :
    find (eraseKey m k) k = none := by
  rw [find_eq_none_iff]
  intro hmem
  unfold keys eraseKey at hmem
  rcases List.mem_map.1 hmem with ⟨e, he, hek⟩
  rcases List.mem_filter.1 he with ⟨_, hne⟩
  rw [decide_eq_true_eq] at hne
  exact hne hek

theorem find_eraseKey_ne (m : KMap β) {k k' : Nat} (h : k' ≠ k) :
    find (eraseKey m k) k' = find m k' := by
  induction m with
  | nil => rfl
  | cons e es ih =>
    by_cases hk : e.1 = k
    · have h1 : eraseKey (e :: es) k = eraseKey es k := by
        unfold eraseKey
        rw [List.filter_cons_of_neg (by simp [hk])]
      rw [h1, ih, find_cons, if_neg (fun hek => h (hek.symm.trans hk))]
    · have h1 : eraseKey (e :: es) k = e :: eraseKey es k := by
        unfold eraseKey
        rw [List.filter_cons_of_pos (by simp [hk])]
      rw [h1, find_cons, find_cons]
      by_cases hk' : e.1 = k'
      · rw [if_pos hk', if_pos hk']
      · rw [if_neg hk', if_neg hk', ih]

theorem mem_eraseKey {m : KMap β} {k : Nat} {e : Nat × β} :
    e ∈ eraseKey m k ↔ e ∈ m ∧ e.1 ≠ k := by
  unfold eraseKey
  rw [List.mem_filter]
  simp

theorem keys_eraseKey_nodup {m : KMap β} (hn : (keys m).Nodup) (k : Nat) :
    (keys (eraseKey m k)).Nodup := by
  apply List.Nodup.sublist _ hn
  exact List.Sublist.map _ (List.filter_sublist m)

theorem eraseKey_of_none {m : KMap β} {k : Nat} (h : find m k = none) :
    eraseKey m k = m := by
  have hk := find_eq_none_iff.1 h
  apply List.filter_eq_self.2
  intro e he
  simp only [decide_eq_true_eq]
  intro hek
  exact hk (hek ▸ List.mem_map.2 ⟨e, he, rfl⟩)

theorem length_eraseKey {m : KMap β} {k : Nat} {v : β}
    (hn : (keys m).Nodup) (h : find m k = some v) :
    (eraseKey m k).length + 1 = m.length := by
  induction m with
  | nil => simp at h
  | cons e es ih =>
    rw [keys, List.map_cons, List.nodup_cons] at hn
    rw [find_cons] at h
    by_cases hk : e.1 = k
    · have h1 : eraseKey (e :: es) k = eraseKey es k := by
        unfold eraseKey
        rw [List.filter_cons_of_neg (by simp [hk])]
      have h2 : find es k = none := by
        rw [find_eq_none_iff]
        intro hmem
        exact hn.1 (hk ▸ hmem)
      rw [h1, eraseKey_of_none h2, List.length_cons]
    · rw [if_neg hk] at h
      have h1 : eraseKey (e :: es) k = e :: eraseKey es k := by
        unfold eraseKey
        rw [List.filter_cons_of_pos (by simp [hk])]
      rw [h1, List.length_cons, List.length_cons, ih hn.2 h]

end KMap

/-! ### Lemmas about `UniqueStack` -/

namespace UniqueStack

theorem mem_push {s : UniqueStack} {x y : Nat} :
    y ∈ (s.push x).order ↔ y = x ∨ y ∈ s.order := by
  unfold push
  simp only [List.mem_append, List.mem_singleton]
  constructor
  · rintro (h | h)
    · right
      split at h
      · exact List.mem_of_mem_erase h
      · exact h
    · left; exact h
  · rintro (h | h)
    · right; exact h
    · by_cases hxy : y = x
      · right; exact hxy
      · left
        split
        · exact (List.mem_erase_of_ne hxy).2 h
        · exact h

theorem nodup_push {s : UniqueStack} (hn : s.order.Nodup) (x : Nat) :
    (s.push x).order.Nodup := by
  unfold push
  refine List.Nodup.append ?_ (List.nodup_singleton _) ?_
  · split
    · exact hn.erase x
    · exact hn
  · intro a ha hb
    rw [List.mem_singleton] at hb
    subst hb
    split at ha
    · rw [List.Nodup.mem_erase_iff hn] at ha
      exact ha.1 rfl
    · rename_i hx
      exact hx ha

theorem mem_delete {s : UniqueStack} (hn : s.order.Nodup) {x y : Nat} :
    y ∈ (s.delete x).order ↔ y ≠ x ∧ y ∈ s.order := by
  unfold delete
  exact List.Nodup.mem_erase_iff hn

theorem nodup_delete {s : UniqueStack} (hn : s.order.Nodup) (x : Nat) :
    (s.delete x).order.Nodup := hn.erase x

end UniqueStack

/-! ### Lemmas about lists of slots -/

theorem getD_set_self {α : Type} {l : List (Option (PageFrame α))} {i : Nat}
    (h : i < l.length) (a : Option (PageFrame α)) :
    (l.set i a).getD i none = a := by
  rw [List.getD_eq_getElem?_getD, List.getElem?_set_self (by simpa using h)]
  rfl

theorem getD_set_ne {α : Type} (l : List (Option (PageFrame α))) {i j : Nat}
    (h : i ≠ j) (a : Option (PageFrame α)) :
    (l.set i a).getD j none = l.getD j none := by
  rw [List.getD_eq_getElem?_getD, List.getD_eq_getElem?_getD,
    List.getElem?_set_ne h]

theorem getD_isSome_lt {α : Type} {l : List (Option (PageFrame α))} {i : Nat}
    {pg : PageFrame α} (h : l.getD i none = some pg) : i < l.length := by
  by_contra hlen
  rw [List.getD_eq_getElem?_getD, List.getElem?_eq_none (by omega)] at h
  cases h

theorem firstNone_spec {α : Type} {l : List (Option (PageFrame α))} {i : Nat}
    (h : firstNone l = some i) : l.getD i none = none ∧ i < l.length := by
  induction l generalizing i with
  | nil => cases h
  | cons hd tl ih =>
    match hd, h with
    | none, h =>
      rw [firstNone] at h
      cases h
      exact ⟨rfl, by simp⟩
    | some pg, h =>
      rw [firstNone] at h
      rcases Option.map_eq_some'.1 h with ⟨j, hj, hij⟩
      subst hij
      rcases ih hj with ⟨h1, h2⟩
      constructor
      · simpa using h1
      · simpa using h2

theorem firstNone_isSome {α : Type} {l : List (Option (PageFrame α))}
    {j : Nat} (hj : j < l.length) (h : l.getD j none = none) :
    (firstNone l).isSome := by
  induction l generalizing j with
  | nil => simp at hj
  | cons hd tl ih =>
    match hd with
    | none => rw [firstNone]; rfl
    | some pg =>
      rw [firstNone]
      match j with
      | 0 => simp at h
      | j + 1 =>
        have := ih (by simpa using hj) (by simpa using h)
        rcases Option.isSome_iff_exists.1 this with ⟨i, hi⟩
        rw [hi]
        rfl

/-! ### Preservation of the well-formedness invariant -/

variable {σ α : Type}

theorem wf_new (n : Nat) : Wf (BufferPool.new α n) := by
  refine ⟨?_, ?_, ?_, ?_, ?_, ?_, ?_, ?_, ?_, ?_, ?_, ?_, ?_⟩ <;>
    simp [BufferPool.new, KMap.empty, KMap.keys, KMap.size, UniqueStack.new]

/-- Pushing a mapped slot on the recency tracker preserves `Wf`. -/
theorem wf_push {p : BufferPool α} (hw : Wf p) {sid : Nat}
    (hs : (KMap.find p.buf2frame sid).isSome) :
    Wf { p with lru := p.lru.push sid } := by
  obtain ⟨hpl, hnb, hnf, hbf, hfb, hks, hocc, hemp, hlen, hcap, hlm, hml, hln⟩ := hw
  refine ⟨hpl, hnb, hnf, hbf, hfb, hks, hocc, hemp, hlen, hcap, ?_, ?_, ?_⟩
  · intro s hmem
    rcases UniqueStack.mem_push.1 hmem with h | h
    · exact h ▸ hs
    · exact hlm s h
  · intro e he
    exact UniqueStack.mem_push.2 (Or.inr (hml e he))
  · exact UniqueStack.nodup_push hln sid

/-- Overwriting an occupied slot's frame preserves `Wf`. -/
theorem wf_set_occupied {p : BufferPool α} (hw : Wf p) {s : Nat}
    {pg : PageFrame α} (hocc0 : p.pages.getD s none = some pg)
    (pg' : PageFrame α) :
    Wf { p with pages := p.pages.set s (some pg') } := by
  obtain ⟨hpl, hnb, hnf, hbf, hfb, hks, hocc, hemp, hlen, hcap, hlm, hml, hln⟩ := hw
  have hslt : s < p.pages.length := getD_isSome_lt hocc0
  refine ⟨?_, hnb, hnf, hbf, hfb, hks, ?_, ?_, hlen, hcap, hlm, hml, hln⟩
  · rw [List.length_set]; exact hpl
  · intro e he
    by_cases hes : e.1 = s
    · subst hes
      rw [getD_set_self hslt]
      rfl
    · rw [getD_set_ne _ (fun h => hes h.symm)]
      exact hocc e he
  · intro s' hs' hfind
    by_cases hes : s' = s
    · subst hes
      have := hemp s' hs' hfind
      rw [this] at hocc0
      cases hocc0
    · rw [getD_set_ne _ (fun h => hes h.symm)]
      exact hemp s' hs' hfind

/-- Shape of a successful eviction: the victim slot was occupied and
mapped, and the result clears the slot, both maps, and the tracker. -/
theorem evictStep_ok {fp : FramePoolOps σ α} {ev : EvictorFn α} {bs bs1 : σ}
    {p p1 : BufferPool α}
    (h : evictStep fp ev bs p = .ok (p1, bs1)) :
    ∃ victim vfid vpage,
      ev p.pages p.lru = .ok victim ∧
      p.pages.getD victim none = some vpage ∧
      KMap.find p.buf2frame victim = some vfid ∧
      p1 = { p with pages := p.pages.set victim none
                    buf2frame := KMap.eraseKey p.buf2frame victim
                    frame2buf := KMap.eraseKey p.frame2buf vfid
                    lru := p.lru.delete victim } ∧
      (bs1 = bs ∨
        ∃ u, fp.put_frame bs vfid vpage.data = (Except.ok u, bs1)) := by
  unfold evictStep at h
  split at h
  · simp at h
  · rename_i victim hev
    split at h
    · simp at h
    · rename_i vpage hvp
      split at h
      · simp at h
      · rename_i vfid hvf
        split at h
        · split at h
          · simp at h
          · rename_i u bs2 hput
            cases h
            exact ⟨victim, vfid, vpage, hev, hvp, hvf, rfl, Or.inr ⟨u, hput⟩⟩
        · cases h
          exact ⟨victim, vfid, vpage, hev, hvp, hvf, rfl, Or.inl rfl⟩

/-- Clearing an occupied, mapped slot preserves `Wf` and shrinks the maps
by one entry. -/
theorem wf_evicted {p : BufferPool α} (hw : Wf p) {victim vfid : Nat}
    {vpage : PageFrame α}
    (hvp : p.pages.getD victim none = some vpage)
    (hvf : KMap.find p.buf2frame victim = some vfid) :
    Wf { p with pages := p.pages.set victim none
                buf2frame := KMap.eraseKey p.buf2frame victim
                frame2buf := KMap.eraseKey p.frame2buf vfid
                lru := p.lru.delete victim } ∧
    KMap.size (KMap.eraseKey p.buf2frame victim) + 1 =
      KMap.size p.buf2frame := by
  obtain ⟨hpl, hnb, hnf, hbf, hfb, hks, hocc, hemp, hlen, hcap, hlm, hml, hln⟩ := hw
  have hvb : KMap.find p.frame2buf vfid = some victim :=
    hbf (victim, vfid) (KMap.find_eq_some_mem hvf)
  have hvlt : victim < p.size := hks (victim, vfid) (KMap.find_eq_some_mem hvf)
  have hblen : (KMap.eraseKey p.buf2frame victim).length + 1 =
      p.buf2frame.length := KMap.length_eraseKey hnb hvf
  have hflen : (KMap.eraseKey p.frame2buf vfid).length + 1 =
      p.frame2buf.length := KMap.length_eraseKey hnf hvb
  constructor
  · refine ⟨?_, ?_, ?_, ?_, ?_, ?_, ?_, ?_, ?_, ?_, ?_, ?_, ?_⟩
    · rw [List.length_set]; exact hpl
    · exact KMap.keys_eraseKey_nodup hnb victim
    · exact KMap.keys_eraseKey_nodup hnf vfid
    · intro e he
      rcases KMap.mem_eraseKey.1 he with ⟨hmem, hne⟩
      have h1 : KMap.find p.frame2buf e.2 = some e.1 := hbf e hmem
      have h2 : e.2 ≠ vfid := by
        intro heq
        rw [heq, hvb] at h1
        cases h1
        exact hne rfl
      rw [KMap.find_eraseKey_ne _ h2]
      exact h1
    · intro e he
      rcases KMap.mem_eraseKey.1 he with ⟨hmem, hne⟩
      have h1 : KMap.find p.buf2frame e.2 = some e.1 := hfb e hmem
      have h2 : e.2 ≠ victim := by
        intro heq
        rw [heq, hvf] at h1
        cases h1
        exact hne rfl
      rw [KMap.find_eraseKey_ne _ h2]
      exact h1
    · intro e he
      exact hks e (KMap.mem_eraseKey.1 he).1
    · intro e he
      rcases KMap.mem_eraseKey.1 he with ⟨hmem, hne⟩
      rw [getD_set_ne _ (fun h => hne h.symm)]
      exact hocc e hmem
    · intro s hs hfind
      by_cases hes : s = victim
      · subst hes
        rw [getD_set_self (hpl ▸ hvlt)]
      · rw [KMap.find_eraseKey_ne _ hes] at hfind
        rw [getD_set_ne _ (fun h => hes h.symm)]
        exact hemp s hs hfind
    · dsimp only
      unfold KMap.size at hlen ⊢
      omega
    · dsimp only
      unfold KMap.size at hcap ⊢
      omega
    · intro s hmem
      rcases (UniqueStack.mem_delete hln).1 hmem with ⟨hne, hs⟩
      rw [KMap.find_eraseKey_ne _ hne]
      exact hlm s hs
    · intro e he
      rcases KMap.mem_eraseKey.1 he with ⟨hmem, hne⟩
      exact (UniqueStack.mem_delete hln).2 ⟨hne, hml e hmem⟩
    · exact UniqueStack.nodup_delete hln victim
  · exact hblen

/-- Installing a freshly loaded frame in an empty slot and pushing the
slot on the tracker preserves `Wf`. -/
theorem wf_install_push {p : BufferPool α} (hw : Wf p) {fid target : Nat}
    (hmiss : KMap.find p.frame2buf fid = none)
    (hlt : KMap.size p.buf2frame < p.size)
    (htg : p.pages.getD target none = none)
    (htlt : target < p.pages.length) (fr : PageFrame α) :
    Wf { p with pages := p.pages.set target (some fr)
                buf2frame := KMap.insert p.buf2frame target fid
                frame2buf := KMap.insert p.frame2buf fid target
                lru := p.lru.push target } := by
  obtain ⟨hpl, hnb, hnf, hbf, hfb, hks, hocc, hemp, hlen, hcap, hlm, hml, hln⟩ := hw
  have hb2ft : KMap.find p.buf2frame target = none := by
    cases hf : KMap.find p.buf2frame target with
    | none => rfl
    | some f0 =>
      have := hocc (target, f0) (KMap.find_eq_some_mem hf)
      rw [htg] at this
      cases this
  refine ⟨?_, ?_, ?_, ?_, ?_, ?_, ?_, ?_, ?_, ?_, ?_, ?_, ?_⟩
  · rw [List.length_set]; exact hpl
  · exact KMap.keys_insert_nodup hnb target fid
  · exact KMap.keys_insert_nodup hnf fid target
  · intro e he
    rw [KMap.insert_of_none fid hb2ft, List.mem_append] at he
    rcases he with he | he
    · have h1 : KMap.find p.frame2buf e.2 = some e.1 := hbf e he
      have h2 : e.2 ≠ fid := by
        intro heq
        rw [heq, hmiss] at h1
        cases h1
      rw [KMap.find_insert_ne _ _ h2]
      exact h1
    · rw [List.mem_singleton] at he
      subst he
      exact KMap.find_insert_self _ _ _
  · intro e he
    rw [KMap.insert_of_none target hmiss, List.mem_append] at he
    rcases he with he | he
    · have h1 : KMap.find p.buf2frame e.2 = some e.1 := hfb e he
      have h2 : e.2 ≠ target := by
        intro heq
        rw [heq, hb2ft] at h1
        cases h1
      rw [KMap.find_insert_ne _ _ h2]
      exact h1
    · rw [List.mem_singleton] at he
      subst he
      exact KMap.find_insert_self _ _ _
  · intro e he
    rw [KMap.insert_of_none fid hb2ft, List.mem_append] at he
    rcases he with he | he
    · exact hks e he
    · rw [List.mem_singleton] at he
      subst he
      exact hpl ▸ htlt
  · intro e he
    rw [KMap.insert_of_none fid hb2ft, List.mem_append] at he
    rcases he with he | he
    · have hne : e.1 ≠ target := by
        intro heq
        obtain ⟨e1, e2⟩ := e
        replace heq : e1 = target := heq
        subst heq
        have hfind := KMap.mem_find hnb he
        rw [hb2ft] at hfind
        cases hfind
      rw [getD_set_ne _ (fun h => hne h.symm)]
      exact hocc e he
    · rw [List.mem_singleton] at he
      subst he
      rw [getD_set_self htlt]
      rfl
  · intro s hs hfind
    have hne : s ≠ target := by
      intro heq
      rw [heq, KMap.find_insert_self] at hfind
      cases hfind
    rw [KMap.find_insert_ne _ _ hne] at hfind
    rw [getD_set_ne _ (fun h => hne h.symm)]
    exact hemp s hs hfind
  · dsimp only
    unfold KMap.size at hlen ⊢
    rw [KMap.length_insert_of_none fid hb2ft,
      KMap.length_insert_of_none target hmiss, hlen]
  · dsimp only
    unfold KMap.size at hlt ⊢
    rw [KMap.length_insert_of_none fid hb2ft]
    omega
  · intro s hmem
    rcases UniqueStack.mem_push.1 hmem with h | h
    · subst h
      rw [KMap.find_insert_self]
      rfl
    · by_cases hst : s = target
      · subst hst
        rw [KMap.find_insert_self]
        rfl
      · rw [KMap.find_insert_ne _ _ hst]
        exact hlm s h
  · intro e he
    rw [KMap.insert_of_none fid hb2ft, List.mem_append] at he
    rcases he with he | he
    · exact UniqueStack.mem_push.2 (Or.inr (hml e he))
    · rw [List.mem_singleton] at he
      subst he
      exact UniqueStack.mem_push.2 (Or.inl rfl)
  · exact UniqueStack.nodup_push hln target

/-- `loadStep` preserves `Wf` when the pool is not full and `fid` is not
cached. -/
theorem wf_loadStep {fp : FramePoolOps σ α} {bs : σ} {p : BufferPool α}
    {fid : Nat} (hw : Wf p)
    (hmiss : KMap.find p.frame2buf fid = none)
    (hlt : KMap.size p.buf2frame < p.size) :
    Wf (loadStep fp bs p fid).2.1 := by
  unfold loadStep
  cases hfn : firstNone p.pages with
  | none => exact hw
  | some target =>
    rcases firstNone_spec hfn with ⟨htg, htlt⟩
    cases hg : fp.get_frame_ref bs fid with
    | mk r bs2 =>
      cases r with
      | error e => exact hw
      | ok d =>
        dsimp only
        unfold finishGet
        dsimp only
        rw [KMap.find_insert_self]
        exact wf_install_push hw hmiss hlt htg htlt (PageFrame.new_with_arc d)

/-- `get_page` preserves `Wf` for any eviction policy and backing store. -/
theorem wf_get_page (fp : FramePoolOps σ α) (ev : EvictorFn α) (bs : σ)
    {p : BufferPool α} (hw : Wf p) (fid : Nat) :
    Wf (get_page fp ev bs p fid).2.1 := by
  unfold get_page
  split
  · exact hw
  split
  · rename_i hhit
    rcases Option.isSome_iff_exists.1 hhit with ⟨sid, hsid⟩
    unfold finishGet
    rw [hsid]
    have hb : KMap.find p.buf2frame sid = some fid :=
      hw.2.2.2.2.1 (fid, sid) (KMap.find_eq_some_mem hsid)
    exact wf_push hw (by rw [hb]; rfl)
  · rename_i hmiss
    replace hmiss : KMap.find p.frame2buf fid = none := by
      cases hf : KMap.find p.frame2buf fid with
      | none => rfl
      | some sid => rw [hf] at hmiss; exact absurd rfl hmiss
    by_cases hfull : KMap.size p.frame2buf = p.size
    · rw [if_pos hfull]
      cases hev : evictStep fp ev bs p with
      | error bs1 => exact hw
      | ok pr =>
        obtain ⟨p1, bs1⟩ := pr
        rcases evictStep_ok hev with ⟨victim, vfid, vpage, _, hvp, hvf, hp1, _⟩
        rcases wf_evicted hw hvp hvf with ⟨hw1, hshrink⟩
        rw [hp1]
        have hfid_ne : fid ≠ vfid := by
          intro heq
          have : KMap.find p.frame2buf vfid = some victim :=
            hw.2.2.2.1 (victim, vfid) (KMap.find_eq_some_mem hvf)
          rw [← heq, hmiss] at this
          cases this
        apply wf_loadStep hw1
        · simpa using KMap.find_eraseKey_ne p.frame2buf hfid_ne ▸ hmiss
        · have hfull' : KMap.size p.buf2frame = p.size := by
            have h9 := hw.2.2.2.2.2.2.2.2.1
            rw [h9, hfull]
          simp only [KMap.size] at hshrink hfull' ⊢
          omega
    · rw [if_neg hfull]
      apply wf_loadStep hw hmiss
      have h9 := hw.2.2.2.2.2.2.2.2.1
      have h10 := hw.2.2.2.2.2.2.2.2.2.1
      simp only [KMap.size] at h9 h10 hfull ⊢
      omega

/-- `put_page` preserves `Wf`. -/
theorem wf_put_page (fp : FramePoolOps σ α) (ev : EvictorFn α) (bs : σ)
    {p : BufferPool α} (hw : Wf p) (fid : Nat) (d : α) :
    Wf (put_page fp ev bs p fid d).2.1 := by
  unfold put_page
  cases hgp : get_page fp ev bs p fid with
  | mk r st =>
    obtain ⟨p1, bs1⟩ := st
    have hw1 : Wf p1 := by
      have h := wf_get_page fp ev bs hw fid
      rw [hgp] at h
      exact h
    cases r with
    | none => exact hw1
    | some pg =>
      dsimp only
      cases hf : KMap.find p1.frame2buf fid with
      | none => exact hw1
      | some sid =>
        dsimp only
        cases hpg : p1.pages.getD sid none with
        | none => exact hw1
        | some fr => exact wf_set_occupied hw1 hpg _

/-- `sync_index` never changes the pool's cached state. -/
theorem sync_index_pool_eq (fp : FramePoolOps σ α) (bs : σ)
    (p : BufferPool α) (fid : Nat) : (sync_index fp bs p fid).2.1 = p := by
  unfold sync_index
  split
  · rfl
  · split
    · rfl
    · split
      · split
        · rfl
        · rfl
      · rfl

/-- `flushGo` only touches the `pages` entries; the maps, the tracker, the
capacity, and the slot-vector length are untouched. -/
theorem flushGo_fields (fp : FramePoolOps σ α) (l : List (Nat × Nat)) :
    ∀ (bs : σ) (p : BufferPool α),
      (flushGo fp bs p l).2.1.buf2frame = p.buf2frame ∧
      (flushGo fp bs p l).2.1.frame2buf = p.frame2buf ∧
      (flushGo fp bs p l).2.1.lru = p.lru ∧
      (flushGo fp bs p l).2.1.size = p.size ∧
      (flushGo fp bs p l).2.1.pages.length = p.pages.length := by
  induction l with
  | nil => intro bs p; exact ⟨rfl, rfl, rfl, rfl, rfl⟩
  | cons e rest ih =>
    intro bs p
    obtain ⟨s, f⟩ := e
    unfold flushGo
    cases hpg : p.pages.getD s none with
    | none => exact ih bs p
    | some page =>
      dsimp only
      by_cases hd : page.dirty
      · rw [if_pos hd]
        cases hput : fp.put_frame bs f page.data with
        | mk r bs1 =>
          cases r with
          | error e => exact ⟨rfl, rfl, rfl, rfl, rfl⟩
          | ok u =>
            dsimp only
            rcases ih bs1
              { p with pages := p.pages.set s (some { page with dirty := false }) }
              with ⟨h1, h2, h3, h4, h5⟩
            refine ⟨h1, h2, h3, h4, ?_⟩
            rw [h5]
            exact List.length_set p.pages s _
      · rw [if_neg hd]
        exact ih bs p

/-- `flushGo` preserves `Wf`. -/
theorem wf_flushGo (fp : FramePoolOps σ α) (l : List (Nat × Nat)) :
    ∀ (bs : σ) (p : BufferPool α), Wf p → Wf (flushGo fp bs p l).2.1 := by
  induction l with
  | nil => intro bs p hw; exact hw
  | cons e rest ih =>
    intro bs p hw
    obtain ⟨s, f⟩ := e
    unfold flushGo
    cases hpg : p.pages.getD s none with
    | none => exact ih bs p hw
    | some page =>
      dsimp only
      by_cases hd : page.dirty
      · rw [if_pos hd]
        cases hput : fp.put_frame bs f page.data with
        | mk r bs1 =>
          cases r with
          | error e => exact hw
          | ok u => exact ih bs1 _ (wf_set_occupied hw hpg _)
      · rw [if_neg hd]
        exact ih bs p hw

/-- `flush_all` preserves `Wf`. -/
theorem wf_flush_all (fp : FramePoolOps σ α) (bs : σ) {p : BufferPool α}
    (hw : Wf p) : Wf (flush_all fp bs p).2.1 :=
  wf_flushGo fp p.buf2frame bs p hw

/-- `ensure_allocation` never changes the pool's cached state. -/
theorem ensure_allocation_pool_eq (fp : FramePoolOps σ α) (bs : σ)
    (p : BufferPool α) (n : Nat) : (ensure_allocation fp bs p n).2.1 = p := by
  unfold ensure_allocation
  rfl

/-- Every public operation preserves `Wf`. -/
theorem wf_applyOp (fp : FramePoolOps σ α) (ev : EvictorFn α)
    {st : BufferPool α × σ} (hw : Wf st.1) (op : Op α) :
    Wf (applyOp fp ev st op).1 := by
  cases op with
  | get fid => exact wf_get_page fp ev st.2 hw fid
  | put fid d => exact wf_put_page fp ev st.2 hw fid d
  | sync fid =>
    show Wf (sync_index fp st.2 st.1 fid).2.1
    rw [sync_index_pool_eq]
    exact hw
  | flush => exact wf_flush_all fp st.2 hw
  | ensure n =>
    show Wf (ensure_allocation fp st.2 st.1 n).2.1
    rw [ensure_allocation_pool_eq]
    exact hw

/-- `Wf` is preserved along any operation sequence. -/
theorem wf_runOps (fp : FramePoolOps σ α) (ev : EvictorFn α)
    {st : BufferPool α × σ} (hw : Wf st.1) (ops : List (Op α)) :
    Wf (runOps fp ev st ops).1 := by
  induction ops generalizing st with
  | nil => exact hw
  | cons op rest ih => exact ih (wf_applyOp fp ev hw op)

theorem claimInv_of_wf {p : BufferPool α} (hw : Wf p) : ClaimInv p := by
  obtain ⟨hpl, hnb, hnf, hbf, hfb, hks, hocc, hemp, hlen, hcap, hlm, hml, hln⟩ := hw
  refine ⟨?_, hlen, hcap, ?_, hln⟩
  · intro s f
    constructor
    · intro h
      exact hbf (s, f) (KMap.find_eq_some_mem h)
    · intro h
      exact hfb (f, s) (KMap.find_eq_some_mem h)
  · intro s
    constructor
    · exact hlm s
    · intro h
      rcases Option.isSome_iff_exists.1 h with ⟨f, hf⟩
      exact hml (s, f) (KMap.find_eq_some_mem hf)

/-- C1: for every `BufferPool` constructed by `new` with the
`bottom_evictor` policy, over any backing store, after every sequence of
public operations (`get_page`, `put_page`, `sync_index`, `flush_all`,
`ensure_allocation`) the slot-to-frame map and the frame-to-slot map are
inverse bijections of equal cardinality at most the capacity, and the
recency tracker holds exactly the keys of the slot-to-frame map, with no
duplicates.  Since the sequence is arbitrary, this holds after each
operation of any sequence. -/
theorem claim_C1_pool_invariants (σ α : Type) (fp : FramePoolOps σ α)
    (bs : σ) (capacity : Nat) (ops : List (Op α)) :
    ClaimInv (runOps fp bottom_evictor (BufferPool.new α capacity, bs) ops).1 :=
  claimInv_of_wf (wf_runOps fp bottom_evictor (wf_new capacity) ops)

/-! ### C5: characterization of `bottom_evictor` -/

theorem bottomScan_eq_find {α : Type} (pages : List (Option (PageFrame α))) :
    ∀ l : List Nat,
      bottomScan pages l =
        (match l.find? (evictable pages) with
         | some i => .ok i
         | none => .error .NoEvictablePage) := by
  intro l
  induction l with
  | nil => rfl
  | cons i rest ih =>
    unfold bottomScan
    cases hp : pages.getD i none with
    | none =>
      rw [List.find?_cons_of_neg _ (by unfold evictable; rw [hp]; exact Bool.false_ne_true)]
      exact ih
    | some pg =>
      dsimp only
      by_cases hpin : pg.is_pinned
      · rw [if_pos hpin,
          List.find?_cons_of_neg _ (by unfold evictable; rw [hp]; simp [hpin])]
        exact ih
      · rw [if_neg hpin,
          List.find?_cons_of_pos _ (by unfold evictable; rw [hp]; simp [hpin])]

/-- C5: on any slot vector and recency tracker whose entries index valid
slots, `bottom_evictor` returns the first slot id, scanning the tracker
from least-recent to most-recent, that is occupied by an unpinned frame,
and `NoEvictablePage` when no such slot id exists.  (The model is a pure
function, so it cannot mutate its arguments; the in-bounds hypothesis marks
the domain on which the Rust indexing does not panic.) -/
theorem claim_C5_bottom_evictor {α : Type}
    (pages : List (Option (PageFrame α))) (lru : UniqueStack)
    (_hbound : ∀ i ∈ lru.order, i < pages.length) :
    bottom_evictor pages lru =
      (match lru.order.find? (evictable pages) with
       | some i => .ok i
       | none => .error .NoEvictablePage) :=
  bottomScan_eq_find pages lru.order

theorem claim_C5_witness :
    (∀ i ∈ (⟨[2, 0, 4]⟩ : UniqueStack).order,
      i < ([none, none, some ⟨2, 0, false⟩, none, some ⟨4, 0, false⟩] :
        List (Option (PageFrame Nat))).length) ∧
    bottom_evictor
        [none, none, some ⟨2, 0, false⟩, none, some ⟨4, 0, false⟩]
        (⟨[2, 0, 4]⟩ : UniqueStack) =
      (match ([2, 0, 4].find?
          (evictable [none, none, some ⟨2, 0, false⟩, none,
            some ⟨4, 0, false⟩])) with
       | some i => .ok i
       | none => .error .NoEvictablePage) :=
  ⟨by decide, claim_C5_bottom_evictor _ _ (by decide)⟩

/-! ### C4: pinned frames are never evicted -/

theorem bottomScan_ok_unpinned {α : Type}
    {pages : List (Option (PageFrame α))} {l : List Nat} {sid : Nat}
    (h : bottomScan pages l = .ok sid) :
    ∃ pg, pages.getD sid none = some pg ∧ pg.is_pinned = false := by
  induction l with
  | nil => cases h
  | cons i rest ih =>
    unfold bottomScan at h
    cases hp : pages.getD i none with
    | none =>
      rw [hp] at h
      exact ih h
    | some pg =>
      rw [hp] at h
      dsimp only at h
      by_cases hpin : pg.is_pinned
      · rw [if_pos hpin] at h
        exact ih h
      · rw [if_neg hpin] at h
        cases h
        exact ⟨pg, hp, Bool.not_eq_true _ ▸ hpin⟩

theorem loadStep_keeps_slot {σ α : Type} {fp : FramePoolOps σ α} {bs : σ}
    {p : BufferPool α} {fid s : Nat} {f : PageFrame α}
    (hs : p.pages.getD s none = some f) :
    (loadStep fp bs p fid).2.1.pages.getD s none = some f := by
  unfold loadStep
  cases hfn : firstNone p.pages with
  | none => exact hs
  | some target =>
    rcases firstNone_spec hfn with ⟨htg, _⟩
    have hne : target ≠ s := by
      intro heq
      rw [heq, hs] at htg
      cases htg
    cases hg : fp.get_frame_ref bs fid with
    | mk r bs2 =>
      cases r with
      | error e => exact hs
      | ok d =>
        dsimp only
        unfold finishGet
        cases hfind : KMap.find
            (KMap.insert p.frame2buf fid target) fid with
        | none =>
          dsimp only
          rw [getD_set_ne _ hne]
          exact hs
        | some b =>
          dsimp only
          rw [getD_set_ne _ hne]
          exact hs

theorem get_page_keeps_pinned {σ α : Type} {fp : FramePoolOps σ α} {bs : σ}
    {p : BufferPool α} {s : Nat} {f : PageFrame α} (fid : Nat)
    (hs : p.pages.getD s none = some f) (hpin : 0 < f.pins) :
    (get_page fp bottom_evictor bs p fid).2.1.pages.getD s none = some f := by
  unfold get_page
  split
  · exact hs
  split
  · unfold finishGet
    cases hfind : KMap.find p.frame2buf fid with
    | none => exact hs
    | some b => exact hs
  · cases hecase : (if KMap.size p.frame2buf = p.size
        then evictStep fp bottom_evictor bs p else .ok (p, bs)) with
    | error bs1 => exact hs
    | ok pr =>
      obtain ⟨p1, bs1⟩ := pr
      dsimp only
      have hload : p1.pages.getD s none = some f := by
        split at hecase
        · rcases evictStep_ok hecase with ⟨victim, vfid, vpage, hbe, hvp, hvf, hp1, _⟩
          rcases bottomScan_ok_unpinned hbe with ⟨pg, hpg, hpgu⟩
          rw [hvp] at hpg
          cases hpg
          have hne : victim ≠ s := by
            intro heq
            rw [heq, hs] at hvp
            cases hvp
            unfold PageFrame.is_pinned at hpgu
            simp at hpgu
            omega
          rw [hp1]
          dsimp only
          rw [getD_set_ne _ hne]
          exact hs
        · cases hecase
          exact hs
      exact loadStep_keeps_slot hload

/-- C4: over any sequence of `get_page` calls with the `bottom_evictor`
policy, a frame whose pin count is positive is never removed from its
slot; equivalently (and this is how the proof goes), the eviction policy
only ever returns the slot id of an unpinned, occupied frame.  The claim's
proviso that another evictable slot exists is not needed: when nothing is
evictable the `get_page` miss returns `None` without touching the cache. -/
theorem claim_C4_pinned_never_evicted :
    (∀ (α : Type) (pages : List (Option (PageFrame α)))
        (lru : UniqueStack) (sid : Nat),
      bottom_evictor pages lru = .ok sid →
        ∃ pg, pages.getD sid none = some pg ∧ pg.is_pinned = false) ∧
    (∀ (σ α : Type) (fp : FramePoolOps σ α) (st : BufferPool α × σ)
        (s : Nat) (f : PageFrame α) (fids : List Nat),
      st.1.pages.getD s none = some f → 0 < f.pins →
        (runOps fp bottom_evictor st (fids.map Op.get)).1.pages.getD s none =
          some f) := by
  constructor
  · intro α pages lru sid h
    exact bottomScan_ok_unpinned h
  · intro σ α fp st s f fids
    induction fids generalizing st with
    | nil => intro hs _; exact hs
    | cons fid rest ih =>
      intro hs hpin
      exact ih _ (get_page_keeps_pinned fid hs hpin) hpin

theorem claim_C4_witness :
    (∃ pg, ([none, some ⟨(7 : Nat), 0, false⟩] :
        List (Option (PageFrame Nat))).getD 1 none = some pg ∧
      pg.is_pinned = false) ∧
    (runOps (memOps Nat) bottom_evictor
        (⟨1, [some ⟨(5 : Nat), 1, false⟩], [(0, 0)], [(0, 0)], ⟨[0]⟩⟩,
          ([(0, some 9), (1, some 3)] : MemPool Nat))
        ([1, 0].map Op.get)).1.pages.getD 0 none = some ⟨5, 1, false⟩ := by
  constructor
  · exact claim_C4_pinned_never_evicted.1 Nat
      [none, some ⟨7, 0, false⟩] ⟨[0, 1]⟩ 1 rfl
  · exact claim_C4_pinned_never_evicted.2 (MemPool Nat) Nat (memOps Nat)
      (⟨1, [some ⟨5, 1, false⟩], [(0, 0)], [(0, 0)], ⟨[0]⟩⟩,
        [(0, some 9), (1, some 3)]) 0 ⟨5, 1, false⟩ [1, 0] rfl (by decide)

/-! ### C8: `random_evictor` -/

theorem randomScan_ok_unpinned {α : Type}
    {pages : List (Option (PageFrame α))} {draws : Nat → Nat} :
    ∀ {fuel t sid : Nat}, randomScan pages draws fuel t = .ok sid →
      ∃ pg, pages.getD sid none = some pg ∧ pg.is_pinned = false := by
  intro fuel
  induction fuel with
  | zero => intro t sid h; cases h
  | succ n ih =>
    intro t sid h
    unfold randomScan at h
    cases hp : pages.getD (draws t) none with
    | none =>
      rw [hp] at h
      exact ih h
    | some pg =>
      rw [hp] at h
      dsimp only at h
      by_cases hpin : pg.is_pinned
      · rw [if_pos hpin] at h
        exact ih h
      · rw [if_neg hpin] at h
        cases h
        exact ⟨pg, hp, Bool.not_eq_true _ ▸ hpin⟩

theorem randomScan_all_bad {α : Type}
    {pages : List (Option (PageFrame α))} {draws : Nat → Nat} :
    ∀ (fuel t : Nat),
      (∀ u, t ≤ u → u < t + fuel →
        ¬ ∃ pg, pages.getD (draws u) none = some pg ∧ pg.is_pinned = false) →
      randomScan pages draws fuel t = .error .NoEvictablePage := by
  intro fuel
  induction fuel with
  | zero => intro t _; rfl
  | succ n ih =>
    intro t hbad
    unfold randomScan
    cases hp : pages.getD (draws t) none with
    | none =>
      exact ih (t + 1) (fun u hu1 hu2 => hbad u (by omega) (by omega))
    | some pg =>
      dsimp only
      by_cases hpin : pg.is_pinned
      · rw [if_pos hpin]
        exact ih (t + 1) (fun u hu1 hu2 => hbad u (by omega) (by omega))
      · exact absurd ⟨pg, hp, Bool.not_eq_true _ ▸ hpin⟩
          (hbad t (Nat.le_refl t) (by omega))

/-- C8 counterexample: with two slots (`capacity = 2`) of which only slot 1
is occupied (unpinned), and a draw stream whose first two draws — that is,
`capacity` many trials — both hit the empty slot 0, the claim says the
evictor gives up after these `capacity` failed trials and returns
`NoEvictablePage`; the code performs one more trial (`while trials <= len`
runs `len + 1` times) and returns `Ok 1`. -/
theorem claim_C8_counterexample :
    random_evictor [none, some ⟨(0 : Nat), 0, false⟩]
        (fun t => if t < 2 then 0 else 1) = .ok 1 ∧
    ([none, some ⟨(0 : Nat), 0, false⟩] :
      List (Option (PageFrame Nat))).getD 0 none = none ∧
    (fun t => if t < 2 then 0 else (1 : Nat)) 0 = 0 ∧
    (fun t => if t < 2 then 0 else (1 : Nat)) 1 = 0 := by
  exact ⟨rfl, rfl, rfl, rfl⟩

/-- C8 (amended): `random_evictor`, over any draw stream, returns `Ok sid`
only for a slot id holding an unpinned frame, and if each of the first
`capacity + 1` draws fails to find such a slot it returns
`NoEvictablePage` — the loop `while trials <= len` performs `capacity + 1`
trials, not `capacity`. -/
theorem claim_C8_amended :
    (∀ (α : Type) (pages : List (Option (PageFrame α))) (draws : Nat → Nat)
        (sid : Nat),
      random_evictor pages draws = .ok sid →
        ∃ pg, pages.getD sid none = some pg ∧ pg.is_pinned = false) ∧
    (∀ (α : Type) (pages : List (Option (PageFrame α))) (draws : Nat → Nat),
      (∀ t, t ≤ pages.length →
        ¬ ∃ pg, pages.getD (draws t) none = some pg ∧ pg.is_pinned = false) →
      random_evictor pages draws = .error .NoEvictablePage) := by
  constructor
  · intro α pages draws sid h
    exact randomScan_ok_unpinned h
  · intro α pages draws hbad
    exact randomScan_all_bad (pages.length + 1) 0
      (fun u hu1 hu2 => hbad u (by omega))

theorem claim_C8_amended_witness :
    (∃ pg, ([some ⟨(3 : Nat), 0, false⟩] :
      List (Option (PageFrame Nat))).getD 0 none = some pg ∧
        pg.is_pinned = false) ∧
    random_evictor [some ⟨(3 : Nat), 1, false⟩] (fun _ => 0) =
      .error .NoEvictablePage := by
  constructor
  · exact claim_C8_amended.1 Nat [some ⟨3, 0, false⟩] (fun _ => 0) 0 rfl
  · exact claim_C8_amended.2 Nat [some ⟨3, 1, false⟩] (fun _ => 0) (by decide)

/-! ### C2: `sync_index` and the dirty flag -/

/-- C2 counterexample: a pool caching a dirty frame for fid 0 (data 5),
over a backing store holding 7 at key 0.  `sync_index 0` returns `Ok` —
but the frame's dirty flag is still `true` afterwards (the source never
clears it; only `flush_all` does), contradicting the claim that the flag
is false after a successful sync. -/
theorem claim_C2_counterexample :
    (sync_index (memOps Nat) [(0, some 7)]
        ⟨1, [some ⟨5, 0, true⟩], [(0, 0)], [(0, 0)], ⟨[0]⟩⟩ 0).1 = .ok () ∧
    ((sync_index (memOps Nat) [(0, some 7)]
        ⟨1, [some ⟨5, 0, true⟩], [(0, 0)], [(0, 0)], ⟨[0]⟩⟩ 0).2.1.pages.getD
        0 none).map PageFrame.dirty = some true :=
  ⟨rfl, rfl⟩

/-- C2 (amended): for every fid whose frame is cached and dirty over a
`MemPool` backing store, `sync_index(fid)` returns `Ok`, afterwards the
backing store holds data equal to the frame's current data and the frame
remains in the cache with the pool state completely unchanged — in
particular the dirty flag is left set, not cleared. -/
theorem claim_C2_amended (α : Type) (ms : MemPool α) (p : BufferPool α)
    (fid sid : Nat) (pg : PageFrame α)
    (hf : KMap.find p.frame2buf fid = some sid)
    (hpg : p.pages.getD sid none = some pg)
    (hd : pg.dirty = true) :
    (sync_index (memOps α) ms p fid).1 = .ok () ∧
    (sync_index (memOps α) ms p fid).2.1 = p ∧
    (MemPool.get_frame_ref (sync_index (memOps α) ms p fid).2.2 fid).1 =
      .ok pg.data := by
  unfold sync_index
  rw [hf]
  dsimp only
  rw [hpg]
  dsimp only
  rw [if_pos hd]
  show ((.ok (), p, KMap.insert ms fid (some pg.data)) :
      Except String Unit × BufferPool α × MemPool α).1 = .ok () ∧ _
  refine ⟨rfl, rfl, ?_⟩
  show (MemPool.get_frame_ref (KMap.insert ms fid (some pg.data)) fid).1 =
    .ok pg.data
  unfold MemPool.get_frame_ref
  rw [KMap.find_insert_self]

theorem claim_C2_amended_witness :
    (sync_index (memOps Nat) [(0, some 2)]
        ⟨2, [some ⟨8, 0, true⟩, none], [(0, 0)], [(0, 0)], ⟨[0]⟩⟩ 0).1 =
      .ok () ∧
    (sync_index (memOps Nat) [(0, some 2)]
        ⟨2, [some ⟨8, 0, true⟩, none], [(0, 0)], [(0, 0)], ⟨[0]⟩⟩ 0).2.1 =
      ⟨2, [some ⟨8, 0, true⟩, none], [(0, 0)], [(0, 0)], ⟨[0]⟩⟩ ∧
    (MemPool.get_frame_ref
        (sync_index (memOps Nat) [(0, some 2)]
          ⟨2, [some ⟨8, 0, true⟩, none], [(0, 0)], [(0, 0)], ⟨[0]⟩⟩ 0).2.2
        0).1 = .ok 8 :=
  claim_C2_amended Nat [(0, some 2)]
    ⟨2, [some ⟨8, 0, true⟩, none], [(0, 0)], [(0, 0)], ⟨[0]⟩⟩ 0 0
    ⟨8, 0, true⟩ rfl rfl rfl

/-! ### C3: failed backing-store operations and cache state -/

/-- C3 counterexample: capacity-1 pool caching clean frame 0 over a
one-frame store.  `get_page 1` passes the bounds check (`1 > 1` is false),
evicts frame 0, and only then fails to load frame 1: the call returns
`None` but the cache is *not* what it was before the call — the eviction
survives. -/
theorem claim_C3_counterexample :
    (get_page (memOps Nat) bottom_evictor [(0, some 9)]
        ⟨1, [some ⟨9, 0, false⟩], [(0, 0)], [(0, 0)], ⟨[0]⟩⟩ 1).1 = none ∧
    (get_page (memOps Nat) bottom_evictor [(0, some 9)]
        ⟨1, [some ⟨9, 0, false⟩], [(0, 0)], [(0, 0)], ⟨[0]⟩⟩ 1).2.1 ≠
      ⟨1, [some ⟨9, 0, false⟩], [(0, 0)], [(0, 0)], ⟨[0]⟩⟩ := by
  exact ⟨rfl, by decide⟩

/-- C3 (amended): a failed backing-store operation surfaces as an
error/None, and: `sync_index` always leaves the cached state unchanged;
`flush_all` leaves both maps and the recency tracker unchanged (only dirty
flags of frames written before a failure change); a `get_page` whose
eviction write-back fails leaves the cached state exactly as before; but a
`get_page` whose backing-store *load* fails after an eviction keeps the
eviction's effects — the cache is the evicted state, not the original. -/
theorem claim_C3_amended (σ α : Type) (fp : FramePoolOps σ α)
    (ev : EvictorFn α) (bs : σ) (p : BufferPool α) (fid : Nat) :
    ((sync_index fp bs p fid).2.1 = p) ∧
    ((flush_all fp bs p).2.1.buf2frame = p.buf2frame ∧
      (flush_all fp bs p).2.1.frame2buf = p.frame2buf ∧
      (flush_all fp bs p).2.1.lru = p.lru) ∧
    (∀ bs1, KMap.find p.frame2buf fid = none →
      KMap.size p.frame2buf = p.size →
      ¬ fid > fp.size bs →
      evictStep fp ev bs p = .error bs1 →
      get_page fp ev bs p fid = (none, p, bs1)) ∧
    (∀ p1 bs1 target e bs2, KMap.find p.frame2buf fid = none →
      KMap.size p.frame2buf = p.size →
      ¬ fid > fp.size bs →
      evictStep fp ev bs p = .ok (p1, bs1) →
      firstNone p1.pages = some target →
      fp.get_frame_ref bs1 fid = (.error e, bs2) →
      get_page fp ev bs p fid = (none, p1, bs2)) := by
  refine ⟨sync_index_pool_eq fp bs p fid, ?_, ?_, ?_⟩
  · rcases flushGo_fields fp p.buf2frame bs p with ⟨h1, h2, h3, _, _⟩
    exact ⟨h1, h2, h3⟩
  · intro bs1 hmiss hfull hbound hev
    unfold get_page
    rw [if_neg hbound, hmiss,
      if_neg (show ¬((none : Option Nat).isSome = true) from fun h => nomatch h),
      if_pos hfull, hev]
  · intro p1 bs1 target e bs2 hmiss hfull hbound hev hfn hload
    unfold get_page
    rw [if_neg hbound, hmiss,
      if_neg (show ¬((none : Option Nat).isSome = true) from fun h => nomatch h),
      if_pos hfull, hev]
    dsimp only
    unfold loadStep
    rw [hfn, hload]

theorem claim_C3_amended_witness :
    ((sync_index (memOps Nat) [(0, some 9)]
        ⟨1, [some ⟨9, 1, false⟩], [(0, 0)], [(0, 0)], ⟨[0]⟩⟩ 1).2.1 =
      ⟨1, [some ⟨9, 1, false⟩], [(0, 0)], [(0, 0)], ⟨[0]⟩⟩) ∧
    (get_page (memOps Nat) bottom_evictor [(0, some 9)]
        ⟨1, [some ⟨9, 1, false⟩], [(0, 0)], [(0, 0)], ⟨[0]⟩⟩ 1 =
      (none, ⟨1, [some ⟨9, 1, false⟩], [(0, 0)], [(0, 0)], ⟨[0]⟩⟩,
        [(0, some 9)])) ∧
    (get_page (memOps Nat) bottom_evictor [(0, some 9)]
        ⟨1, [some ⟨9, 0, false⟩], [(0, 0)], [(0, 0)], ⟨[0]⟩⟩ 1 =
      (none, ⟨1, [none], [], [], ⟨[]⟩⟩, [(0, some 9)])) := by
  refine ⟨?_, ?_, ?_⟩
  · exact (claim_C3_amended (MemPool Nat) Nat (memOps Nat) bottom_evictor
      [(0, some 9)] ⟨1, [some ⟨9, 1, false⟩], [(0, 0)], [(0, 0)], ⟨[0]⟩⟩ 1).1
  · exact (claim_C3_amended (MemPool Nat) Nat (memOps Nat) bottom_evictor
      [(0, some 9)] ⟨1, [some ⟨9, 1, false⟩], [(0, 0)], [(0, 0)], ⟨[0]⟩⟩
      1).2.2.1 [(0, some 9)] rfl rfl (by decide) rfl
  · exact (claim_C3_amended (MemPool Nat) Nat (memOps Nat) bottom_evictor
      [(0, some 9)] ⟨1, [some ⟨9, 0, false⟩], [(0, 0)], [(0, 0)], ⟨[0]⟩⟩
      1).2.2.2 ⟨1, [none], [], [], ⟨[]⟩⟩ [(0, some 9)] 0 "No such frame"
      [(0, some 9)] rfl rfl (by decide) rfl rfl rfl

/-! ### C6: `flush_all` error behavior -/

/-- C6 counterexample: two cached dirty frames (slots 0 and 1, frame ids 0
and 1) over a store that fails writes to frame 0 and accepts writes to
frame 1.  `flush_all` returns the single first error and frame 1 — whose
write would have succeeded — is never attempted and stays dirty,
contradicting "still attempts the remaining frames, accumulates all
errors, … leaving successfully written frames clean". -/
theorem claim_C6_counterexample :
    (flush_all failZeroOps ()
        ⟨2, [some ⟨10, 0, true⟩, some ⟨11, 0, true⟩], [(0, 0), (1, 1)],
          [(0, 0), (1, 1)], ⟨[0, 1]⟩⟩).1 = .error "boom" ∧
    ((flush_all failZeroOps ()
        ⟨2, [some ⟨10, 0, true⟩, some ⟨11, 0, true⟩], [(0, 0), (1, 1)],
          [(0, 0), (1, 1)], ⟨[0, 1]⟩⟩).2.1.pages.getD 1 none).map
      PageFrame.dirty = some true :=
  ⟨rfl, rfl⟩

theorem flushGo_ok {σ α : Type} (fp : FramePoolOps σ α) :
    ∀ (l : List (Nat × Nat)) (bs : σ) (p : BufferPool α),
      (l.map Prod.fst).Nodup →
      (flushGo fp bs p l).1 = .ok () →
      (∀ e ∈ l, ∀ pg, p.pages.getD e.1 none = some pg →
        (flushGo fp bs p l).2.1.pages.getD e.1 none =
          some ⟨pg.data, pg.pins, false⟩) ∧
      (∀ s, s ∉ l.map Prod.fst →
        (flushGo fp bs p l).2.1.pages.getD s none = p.pages.getD s none) := by
  intro l
  induction l with
  | nil =>
    intro bs p _ _
    exact ⟨fun e he => absurd he (List.not_mem_nil e), fun s _ => rfl⟩
  | cons hd rest ih =>
    intro bs p hnd hok
    obtain ⟨s0, f0⟩ := hd
    rw [List.map_cons, List.nodup_cons] at hnd
    unfold flushGo at hok ⊢
    cases hpg : p.pages.getD s0 none with
    | none =>
      rw [hpg] at hok
      dsimp only at hok ⊢
      obtain ⟨ihA, ihB⟩ := ih bs p hnd.2 hok
      constructor
      · intro e he pg hpge
        rcases List.mem_cons.1 he with he | he
        · subst he
          rw [hpge] at hpg
          cases hpg
        · exact ihA e he pg hpge
      · intro s hs
        exact ihB s (fun h => hs (List.mem_cons_of_mem _ h))
    | some page =>
      rw [hpg] at hok
      dsimp only at hok ⊢
      by_cases hd0 : page.dirty
      · rw [if_pos hd0] at hok ⊢
        cases hput : fp.put_frame bs f0 page.data with
        | mk r bs1 =>
          try rw [hput] at hok
          try rw [hput]
          cases r with
          | error e => simp at hok
          | ok u =>
            dsimp only at hok ⊢
            obtain ⟨ihA, ihB⟩ := ih bs1
              { p with pages := p.pages.set s0 (some { page with dirty := false }) }
              hnd.2 hok
            have hs0lt : s0 < p.pages.length := getD_isSome_lt hpg
            constructor
            · intro e he pg hpge
              rcases List.mem_cons.1 he with he | he
              · subst he
                dsimp only at hpge
                rw [hpge] at hpg
                cases hpg
                have hfin := ihB s0 hnd.1
                rw [hfin]
                dsimp only
                rw [getD_set_self hs0lt]
              · have hne : e.1 ≠ s0 := by
                  intro heq
                  exact hnd.1 (heq ▸ List.mem_map.2 ⟨e, he, rfl⟩)
                apply ihA e he pg
                dsimp only
                rw [getD_set_ne _ (fun h => hne h.symm)]
                exact hpge
            · intro s hs
              have hs1 : s ∉ rest.map Prod.fst :=
                fun h => hs (List.mem_cons_of_mem _ h)
              have hs2 : s ≠ s0 := fun h => hs (h ▸ List.mem_cons_self _ _)
              rw [ihB s hs1]
              dsimp only
              rw [getD_set_ne _ (fun h => hs2 h.symm)]
      · rw [if_neg hd0] at hok ⊢
        obtain ⟨ihA, ihB⟩ := ih bs p hnd.2 hok
        constructor
        · intro e he pg hpge
          rcases List.mem_cons.1 he with he | he
          · subst he
            dsimp only at hpge
            rw [hpge] at hpg
            injection hpg with hpp
            subst hpp
            rw [Bool.not_eq_true] at hd0
            rw [ihB s0 hnd.1, hpge, ← hd0]
          · exact ihA e he pg hpge
        · intro s hs
          exact ihB s (fun h => hs (List.mem_cons_of_mem _ h))

theorem flushGo_err {σ α : Type} (fp : FramePoolOps σ α) :
    ∀ (l : List (Nat × Nat)) (bs : σ) (p : BufferPool α),
      (l.map Prod.fst).Nodup →
      ∀ e0, (flushGo fp bs p l).1 = .error e0 →
      (∀ s', s' ∉ l.map Prod.fst →
        (flushGo fp bs p l).2.1.pages.getD s' none =
          p.pages.getD s' none) ∧
      ∃ l1 s f l2 pg, l = l1 ++ (s, f) :: l2 ∧
        p.pages.getD s none = some pg ∧ pg.dirty = true ∧
        (flushGo fp bs p l).2.1.pages.getD s none = some pg ∧
        (∀ e ∈ l1, ∀ pg', p.pages.getD e.1 none = some pg' →
          (flushGo fp bs p l).2.1.pages.getD e.1 none =
            some ⟨pg'.data, pg'.pins, false⟩) ∧
        (∃ bsf, fp.put_frame bsf f pg.data =
          (.error e0, (flushGo fp bs p l).2.2)) ∧
        (∀ e ∈ l2, (flushGo fp bs p l).2.1.pages.getD e.1 none =
          p.pages.getD e.1 none) := by
  intro l
  induction l with
  | nil => intro bs p _ e0 h; simp [flushGo] at h
  | cons hd rest ih =>
    intro bs p hnd e0 herr
    obtain ⟨s0, f0⟩ := hd
    rw [List.map_cons, List.nodup_cons] at hnd
    unfold flushGo at herr ⊢
    cases hpg : p.pages.getD s0 none with
    | none =>
      rw [hpg] at herr
      dsimp only at herr ⊢
      rcases ih bs p hnd.2 e0 herr with
        ⟨ihC, l1, s, f, l2, pg, hdec, hpgs, hdirty, hfinal, ihA, ihB, hunt⟩
      refine ⟨?_, (s0, f0) :: l1, s, f, l2, pg,
        by rw [hdec, List.cons_append], hpgs, hdirty, hfinal, ?_, ihB, hunt⟩
      · intro s' hs'
        exact ihC s' (fun h => hs' (List.mem_cons_of_mem _ h))
      · intro e he pg' hpge
        rcases List.mem_cons.1 he with he | he
        · subst he
          dsimp only at hpge
          rw [hpge] at hpg
          cases hpg
        · exact ihA e he pg' hpge
    | some page =>
      rw [hpg] at herr
      dsimp only at herr ⊢
      by_cases hd0 : page.dirty
      · rw [if_pos hd0] at herr ⊢
        cases hput : fp.put_frame bs f0 page.data with
        | mk r bs1 =>
          try rw [hput] at herr
          try rw [hput]
          cases r with
          | error e =>
            dsimp only at herr ⊢
            injection herr with he
            subst he
            refine ⟨?_, [], s0, f0, rest, page, by rw [List.nil_append],
              hpg, hd0, hpg, ?_, ⟨bs, hput⟩, ?_⟩
            · intro s' _
              rfl
            · intro e2 he2
              exact absurd he2 (List.not_mem_nil e2)
            · intro e2 _
              rfl
          | ok u =>
            dsimp only at herr ⊢
            rcases ih bs1
                { p with pages := p.pages.set s0 (some { page with dirty := false }) }
                hnd.2 e0 herr with
              ⟨ihC, l1, s, f, l2, pg, hdec, hpgs, hdirty, hfinal, ihA, ihB,
                hunt⟩
            have hs0lt : s0 < p.pages.length := getD_isSome_lt hpg
            have hsmem : s ∈ rest.map Prod.fst := by
              rw [hdec, List.map_append, List.map_cons]
              exact List.mem_append.2 (Or.inr (List.mem_cons_self _ _))
            have hsne : s ≠ s0 := fun h => hnd.1 (h ▸ hsmem)
            refine ⟨?_, (s0, f0) :: l1, s, f, l2, pg,
              by rw [hdec, List.cons_append], ?_, hdirty, hfinal, ?_, ihB,
              ?_⟩
            · intro s' hs'
              have hs1 : s' ∉ rest.map Prod.fst :=
                fun h => hs' (List.mem_cons_of_mem _ h)
              have hs2 : s' ≠ s0 := fun h => hs' (h ▸ List.mem_cons_self _ _)
              rw [ihC s' hs1]
              dsimp only
              rw [getD_set_ne _ (fun h => hs2 h.symm)]
            · dsimp only at hpgs
              rw [getD_set_ne _ (fun h => hsne h.symm)] at hpgs
              exact hpgs
            · intro e he pg' hpge
              rcases List.mem_cons.1 he with he | he
              · subst he
                dsimp only at hpge
                rw [hpge] at hpg
                cases hpg
                rw [ihC s0 hnd.1]
                dsimp only
                rw [getD_set_self hs0lt]
              · have her : e ∈ rest := by
                  rw [hdec]
                  exact List.mem_append.2 (Or.inl he)
                have hne : e.1 ≠ s0 := fun heq =>
                  hnd.1 (heq ▸ List.mem_map.2 ⟨e, her, rfl⟩)
                apply ihA e he pg'
                dsimp only
                rw [getD_set_ne _ (fun h => hne h.symm)]
                exact hpge
            · intro e2 he2
              have he2r : e2 ∈ rest := by
                rw [hdec]
                exact List.mem_append.2 (Or.inr (List.mem_cons_of_mem _ he2))
              have hne2 : e2.1 ≠ s0 := by
                intro heq
                exact hnd.1 (heq ▸ List.mem_map.2 ⟨e2, he2r, rfl⟩)
              rw [hunt e2 he2]
              dsimp only
              rw [getD_set_ne _ (fun h => hne2 h.symm)]
      · rw [if_neg hd0] at herr ⊢
        rcases ih bs p hnd.2 e0 herr with
          ⟨ihC, l1, s, f, l2, pg, hdec, hpgs, hdirty, hfinal, ihA, ihB, hunt⟩
        refine ⟨?_, (s0, f0) :: l1, s, f, l2, pg,
          by rw [hdec, List.cons_append], hpgs, hdirty, hfinal, ?_, ihB,
          hunt⟩
        · intro s' hs'
          exact ihC s' (fun h => hs' (List.mem_cons_of_mem _ h))
        · intro e he pg' hpge
          rcases List.mem_cons.1 he with he | he
          · subst he
            dsimp only at hpge
            rw [hpge] at hpg
            injection hpg with hpp
            subst hpp
            rw [Bool.not_eq_true] at hd0
            rw [ihC s0 hnd.1, hpge, ← hd0]
          · exact ihA e he pg' hpge

/-- C6 (amended): `flush_all` walks the cached frames in map order and
applies the sync action to each dirty one, but stops at the first failing
backing-store write and reports only that error: when it returns `Ok`
every cached frame is left clean; when it returns `Err e0`, the map
snapshot splits as `l1 ++ (s, f) :: l2` where the slot-`s` frame is dirty
and unwritten, every frame of `l1` (the entries before the failure) is
left clean — so every write before the failure succeeded and the failure
is the first one — `e0` is exactly the error of the `put_frame` of frame
`f` with that frame's data, and the frames of `l2` (after the failure)
are untouched, never attempted.  The maps and the recency tracker are
never modified. -/
theorem claim_C6_amended (σ α : Type) (fp : FramePoolOps σ α) (bs : σ)
    (p : BufferPool α) (hw : Wf p) :
    (flush_all fp bs p).2.1.buf2frame = p.buf2frame ∧
    (flush_all fp bs p).2.1.frame2buf = p.frame2buf ∧
    (flush_all fp bs p).2.1.lru = p.lru ∧
    ((flush_all fp bs p).1 = .ok () →
      ∀ e ∈ p.buf2frame, ∀ pg, p.pages.getD e.1 none = some pg →
        (flush_all fp bs p).2.1.pages.getD e.1 none =
          some ⟨pg.data, pg.pins, false⟩) ∧
    (∀ e0, (flush_all fp bs p).1 = .error e0 →
      ∃ l1 s f l2 pg, p.buf2frame = l1 ++ (s, f) :: l2 ∧
        p.pages.getD s none = some pg ∧ pg.dirty = true ∧
        (flush_all fp bs p).2.1.pages.getD s none = some pg ∧
        (∀ e ∈ l1, ∀ pg', p.pages.getD e.1 none = some pg' →
          (flush_all fp bs p).2.1.pages.getD e.1 none =
            some ⟨pg'.data, pg'.pins, false⟩) ∧
        (∃ bsf, fp.put_frame bsf f pg.data =
          (.error e0, (flush_all fp bs p).2.2)) ∧
        (∀ e ∈ l2, (flush_all fp bs p).2.1.pages.getD e.1 none =
          p.pages.getD e.1 none)) := by
  have hnd : (p.buf2frame.map Prod.fst).Nodup := hw.2.1
  obtain ⟨h1, h2, h3, _, _⟩ := flushGo_fields fp p.buf2frame bs p
  refine ⟨h1, h2, h3, ?_, ?_⟩
  · intro hok
    exact (flushGo_ok fp p.buf2frame bs p hnd hok).1
  · intro e0 herr
    exact (flushGo_err fp p.buf2frame bs p hnd e0 herr).2

/-! ### `MemPool`-backed pools: eviction/load characterization -/

/-- Pigeonhole: a duplicate-free list contained in another is no longer. -/
theorem nodup_subset_length {l₁ l₂ : List Nat} (hn : l₁.Nodup)
    (hsub : ∀ x ∈ l₁, x ∈ l₂) : l₁.length ≤ l₂.length := by
  induction l₁ generalizing l₂ with
  | nil => simp
  | cons a l ih =>
    rw [List.nodup_cons] at hn
    have ha : a ∈ l₂ := hsub a (List.mem_cons_self a l)
    have hsub2 : ∀ x ∈ l, x ∈ l₂.erase a := by
      intro x hx
      exact (List.mem_erase_of_ne (show x ≠ a from fun h => hn.1 (h ▸ hx))).2
        (hsub x (List.mem_cons_of_mem a hx))
    have h1 := ih hn.2 hsub2
    have h2 : (l₂.erase a).length = l₂.length - 1 :=
      List.length_erase_of_mem ha
    have h3 : 0 < l₂.length := List.length_pos.2 (List.ne_nil_of_mem ha)
    simp only [List.length_cons]
    omega

/-- A non-full well-formed pool has an empty slot. -/
theorem exists_empty_slot {α : Type} {p : BufferPool α} (hw : Wf p)
    (hlt : KMap.size p.buf2frame < p.size) :
    ∃ t, t < p.pages.length ∧ p.pages.getD t none = none := by
  obtain ⟨hpl, hnb, _, _, _, _, _, hemp, _, _, _, _, _⟩ := hw
  by_contra hno
  push_neg at hno
  have hsub : ∀ x ∈ List.range p.size, x ∈ KMap.keys p.buf2frame := by
    intro x hx
    rw [List.mem_range] at hx
    by_contra hxk
    have hfind : KMap.find p.buf2frame x = none := KMap.find_eq_none_iff.2 hxk
    exact hno x (hpl ▸ hx) (hemp x hx hfind)
  have hcard : p.size ≤ (KMap.keys p.buf2frame).length := by
    have h := nodup_subset_length (List.nodup_range p.size) hsub
    rw [List.length_range] at h
    exact h
  have hkeys : (KMap.keys p.buf2frame).length = p.buf2frame.length :=
    List.length_map _ _
  unfold KMap.size at hlt
  omega

theorem Wf.pages_len {α : Type} {p : BufferPool α} (hw : Wf p) :
    p.pages.length = p.size := hw.1
theorem Wf.nodup_b2f {α : Type} {p : BufferPool α} (hw : Wf p) :
    (KMap.keys p.buf2frame).Nodup := hw.2.1
theorem Wf.nodup_f2b {α : Type} {p : BufferPool α} (hw : Wf p) :
    (KMap.keys p.frame2buf).Nodup := hw.2.2.1
theorem Wf.b2f_f2b {α : Type} {p : BufferPool α} (hw : Wf p) :
    ∀ e ∈ p.buf2frame, KMap.find p.frame2buf e.2 = some e.1 := hw.2.2.2.1
theorem Wf.f2b_b2f {α : Type} {p : BufferPool α} (hw : Wf p) :
    ∀ e ∈ p.frame2buf, KMap.find p.buf2frame e.2 = some e.1 := hw.2.2.2.2.1
theorem Wf.keys_lt {α : Type} {p : BufferPool α} (hw : Wf p) :
    ∀ e ∈ p.buf2frame, e.1 < p.size := hw.2.2.2.2.2.1
theorem Wf.occ {α : Type} {p : BufferPool α} (hw : Wf p) :
    ∀ e ∈ p.buf2frame, (p.pages.getD e.1 none).isSome :=
  hw.2.2.2.2.2.2.1
theorem Wf.emp {α : Type} {p : BufferPool α} (hw : Wf p) :
    ∀ s < p.size, KMap.find p.buf2frame s = none →
      p.pages.getD s none = none := hw.2.2.2.2.2.2.2.1
theorem Wf.card_eq {α : Type} {p : BufferPool α} (hw : Wf p) :
    KMap.size p.buf2frame = KMap.size p.frame2buf := hw.2.2.2.2.2.2.2.2.1
theorem Wf.card_le {α : Type} {p : BufferPool α} (hw : Wf p) :
    KMap.size p.buf2frame ≤ p.size := hw.2.2.2.2.2.2.2.2.2.1

/-- On a well-formed, all-unpinned, nonempty pool, `evictStep` with
`bottom_evictor` over a `MemPool` succeeds, evicting the least-recent
slot; the store either is untouched or receives the victim's data. -/
theorem evictStep_mem {α : Type} {p : BufferPool α} (ms : MemPool α)
    (hw : Wf p) (hu : Unpinned p)
    (hpos : 0 < KMap.size p.buf2frame) :
    ∃ victim vfid vpage ms',
      KMap.find p.buf2frame victim = some vfid ∧
      p.pages.getD victim none = some vpage ∧
      victim ∈ p.lru.order ∧
      evictStep (memOps α) bottom_evictor ms p =
        .ok ({ p with pages := p.pages.set victim none
                      buf2frame := KMap.eraseKey p.buf2frame victim
                      frame2buf := KMap.eraseKey p.frame2buf vfid
                      lru := p.lru.delete victim }, ms') ∧
      (ms' = ms ∨ ms' = KMap.insert ms vfid (some vpage.data)) := by
  obtain ⟨hpl, hnb, hnf, hbf, hfb, hks, hocc, hemp, hlen, hcap, hlm, hml, hln⟩ := hw
  have hbne : p.buf2frame ≠ [] := by
    intro h
    rw [h] at hpos
    simp [KMap.size] at hpos
  obtain ⟨e, he⟩ := List.exists_mem_of_ne_nil p.buf2frame hbne
  have hlne : p.lru.order ≠ [] := List.ne_nil_of_mem (hml e he)
  cases horder : p.lru.order with
  | nil => exact absurd horder hlne
  | cons v t =>
    have hvmem : v ∈ p.lru.order := by
      rw [horder]
      exact List.mem_cons_self v t
    rcases Option.isSome_iff_exists.1 (hlm v hvmem) with ⟨vfid, hvf⟩
    rcases Option.isSome_iff_exists.1
      (hocc (v, vfid) (KMap.find_eq_some_mem hvf)) with ⟨vpage, hvp⟩
    have hpins : vpage.pins = 0 := hu v vpage hvp
    have hpin : vpage.is_pinned = false := by
      unfold PageFrame.is_pinned
      rw [hpins]
      rfl
    have hbe : bottom_evictor p.pages p.lru = .ok v := by
      unfold bottom_evictor
      rw [horder]
      unfold bottomScan
      rw [hvp]
      dsimp only
      rw [hpin]
      rfl
    unfold evictStep
    rw [hbe]
    dsimp only
    rw [hvp]
    dsimp only
    rw [hvf]
    dsimp only
    by_cases hd : vpage.dirty
    · rw [if_pos hd]
      exact ⟨v, vfid, vpage, KMap.insert ms vfid (some vpage.data), hvf, hvp,
        List.mem_cons_self v t, rfl, Or.inr rfl⟩
    · rw [if_neg hd]
      exact ⟨v, vfid, vpage, ms, hvf, hvp, List.mem_cons_self v t, rfl, Or.inl rfl⟩

/-- The load path succeeds on a coherent, non-full pool when the store
holds data for `fid`, installing a fresh clean, unpinned frame. -/
theorem loadStep_mem_ok {α : Type} {p : BufferPool α} {ms : MemPool α}
    {fid : Nat} {v : α} (hw : Wf p) (hu : Unpinned p) (hco : Coherent p ms)
    (hmiss : KMap.find p.frame2buf fid = none)
    (hlt : KMap.size p.buf2frame < p.size)
    (hv : KMap.find ms fid = some (some v)) :
    ∃ p', loadStep (memOps α) ms p fid =
        (some (PageFrame.new_with_arc v), p', ms) ∧
      Wf p' ∧ Unpinned p' ∧ Coherent p' ms ∧ p'.size = p.size ∧
      ∃ sid, KMap.find p'.frame2buf fid = some sid ∧
        p'.pages.getD sid none = some (PageFrame.new_with_arc v) := by
  obtain ⟨t0, ht0lt, ht0⟩ := exists_empty_slot hw hlt
  have hfs := firstNone_isSome ht0lt ht0
  cases hfn : firstNone p.pages with
  | none => rw [hfn] at hfs; cases hfs
  | some target =>
    rcases firstNone_spec hfn with ⟨htg, htlt⟩
    refine ⟨{ p with pages := p.pages.set target (some (PageFrame.new_with_arc v))
                     buf2frame := KMap.insert p.buf2frame target fid
                     frame2buf := KMap.insert p.frame2buf fid target
                     lru := p.lru.push target }, ?_, ?_, ?_, ?_, rfl,
      target, ?_, ?_⟩
    · unfold loadStep
      rw [hfn]
      dsimp only
      rw [show (memOps α).get_frame_ref ms fid = (.ok v, ms) from by
        show MemPool.get_frame_ref ms fid = (.ok v, ms)
        unfold MemPool.get_frame_ref
        rw [hv]]
      dsimp only
      unfold finishGet
      dsimp only
      rw [KMap.find_insert_self]
      dsimp only
      rw [getD_set_self htlt]
    · exact wf_install_push hw hmiss hlt htg htlt (PageFrame.new_with_arc v)
    · intro sid pg hpg
      dsimp only at hpg
      by_cases hst : sid = target
      · subst hst
        rw [getD_set_self htlt] at hpg
        cases hpg
        rfl
      · rw [getD_set_ne _ (fun h => hst h.symm)] at hpg
        exact hu sid pg hpg
    · intro fid' sid' hfind' pg hpg'
      dsimp only at hfind' hpg'
      by_cases hfc : fid' = fid
      · subst hfc
        rw [KMap.find_insert_self] at hfind'
        cases hfind'
        rw [getD_set_self htlt] at hpg'
        cases hpg'
        exact hv
      · rw [KMap.find_insert_ne _ _ hfc] at hfind'
        have hsne : sid' ≠ target := by
          intro heq
          subst heq
          have hb : KMap.find p.buf2frame sid' = some fid' :=
            hw.f2b_b2f (fid', sid') (KMap.find_eq_some_mem hfind')
          have hoc := hw.occ (sid', fid') (KMap.find_eq_some_mem hb)
          rw [htg] at hoc
          cases hoc
        rw [getD_set_ne _ (fun h => hsne h.symm)] at hpg'
        exact hco fid' sid' hfind' pg hpg'
    · exact KMap.find_insert_self _ _ _
    · dsimp only
      rw [getD_set_self htlt]

/-- `get_page` over a coherent `MemPool`-backed pool succeeds and leaves
the store unchanged whenever the store holds data for `fid`. -/
theorem get_page_mem_ok {α : Type} {p : BufferPool α} {ms : MemPool α}
    {fid : Nat} {v : α} (hw : Wf p) (hu : Unpinned p) (hco : Coherent p ms)
    (hnd : (KMap.keys ms).Nodup) (hpos : 0 < p.size)
    (hfid : ¬ fid > MemPool.size ms)
    (hv : KMap.find ms fid = some (some v)) :
    ∃ pg p', get_page (memOps α) bottom_evictor ms p fid = (some pg, p', ms) ∧
      pg.data = v ∧ Wf p' ∧ Unpinned p' ∧ Coherent p' ms ∧
      p'.size = p.size ∧
      ∃ sid, KMap.find p'.frame2buf fid = some sid ∧
        p'.pages.getD sid none = some pg := by
  unfold get_page
  rw [show (memOps α).size ms = MemPool.size ms from rfl, if_neg hfid]
  cases hc : KMap.find p.frame2buf fid with
  | some sid =>
    rw [if_pos (show (some sid).isSome = true from rfl)]
    unfold finishGet
    rw [hc]
    dsimp only
    have hb2f : KMap.find p.buf2frame sid = some fid :=
      hw.f2b_b2f (fid, sid) (KMap.find_eq_some_mem hc)
    rcases Option.isSome_iff_exists.1
      (hw.occ (sid, fid) (KMap.find_eq_some_mem hb2f)) with ⟨pg, hpg⟩
    rw [hpg]
    have hdata : pg.data = v := by
      have h := hco fid sid hc pg hpg
      rw [hv] at h
      injection h with h1
      injection h1 with h2
      exact h2.symm
    refine ⟨pg, _, rfl, hdata, wf_push hw (by rw [hb2f]; rfl), ?_, ?_, rfl,
      sid, hc, hpg⟩
    · intro sid' pg' hpg'
      exact hu sid' pg' hpg'
    · intro fid' sid' hfind' pg' hpg'
      exact hco fid' sid' hfind' pg' hpg'
  | none =>
    rw [if_neg (show ¬((none : Option Nat).isSome = true) from
      fun h => nomatch h)]
    by_cases hfull : KMap.size p.frame2buf = p.size
    · rw [if_pos hfull]
      have hposb : 0 < KMap.size p.buf2frame := by
        have h9 := hw.card_eq
        omega
      rcases evictStep_mem ms hw hu hposb with
        ⟨victim, vfid, vpage, ms', hvf, hvp, hvmem, hevEq, hms'⟩
      have hvltp : victim < p.pages.length := by
        have := hw.keys_lt (victim, vfid) (KMap.find_eq_some_mem hvf)
        rw [hw.pages_len]
        exact this
      have hfb2 : KMap.find p.frame2buf vfid = some victim :=
        hw.b2f_f2b (victim, vfid) (KMap.find_eq_some_mem hvf)
      have hmsEq : ms' = ms := by
        rcases hms' with h | h
        · exact h
        · have hcv : KMap.find ms vfid = some (some vpage.data) :=
            hco vfid victim hfb2 vpage hvp
          rw [h, KMap.insert_self_eq hnd hcv]
      rw [hmsEq] at hevEq
      rw [hevEq]
      dsimp only
      have hfidne : fid ≠ vfid := by
        intro heq
        rw [heq, hfb2] at hc
        cases hc
      have hw1 := (wf_evicted hw hvp hvf).1
      have hshrink := (wf_evicted hw hvp hvf).2
      have hu1 : Unpinned { p with pages := p.pages.set victim none
                                   buf2frame := KMap.eraseKey p.buf2frame victim
                                   frame2buf := KMap.eraseKey p.frame2buf vfid
                                   lru := p.lru.delete victim } := by
        intro sid pg hpg
        dsimp only at hpg
        by_cases hsv : sid = victim
        · subst hsv
          rw [getD_set_self hvltp] at hpg
          cases hpg
        · rw [getD_set_ne _ (fun h => hsv h.symm)] at hpg
          exact hu sid pg hpg
      have hco1 : Coherent { p with pages := p.pages.set victim none
                                    buf2frame := KMap.eraseKey p.buf2frame victim
                                    frame2buf := KMap.eraseKey p.frame2buf vfid
                                    lru := p.lru.delete victim } ms := by
        intro fid' sid' hfind' pg hpg'
        dsimp only at hfind' hpg'
        have hfne : fid' ≠ vfid := by
          intro heq
          rw [heq, KMap.find_eraseKey_self] at hfind'
          cases hfind'
        rw [KMap.find_eraseKey_ne _ hfne] at hfind'
        have hsne : sid' ≠ victim := by
          intro heq
          subst heq
          have hb := hw.f2b_b2f (fid', sid') (KMap.find_eq_some_mem hfind')
          rw [hvf] at hb
          injection hb with hb1
          exact hfne hb1.symm
        rw [getD_set_ne _ (fun h => hsne h.symm)] at hpg'
        exact hco fid' sid' hfind' pg hpg'
      have hmiss1 : KMap.find
          (KMap.eraseKey p.frame2buf vfid) fid = none := by
        rw [KMap.find_eraseKey_ne _ hfidne]
        exact hc
      have hlt1 : KMap.size (KMap.eraseKey p.buf2frame victim) < p.size := by
        unfold KMap.size at hshrink ⊢
        have h9 := hw.card_eq
        unfold KMap.size at h9 hfull
        omega
      rcases loadStep_mem_ok hw1 hu1 hco1 hmiss1 hlt1 hv with
        ⟨p', hcalc, hwf', hu', hco', hsz', sid, hfind, hpg⟩
      exact ⟨PageFrame.new_with_arc v, p', hcalc, rfl, hwf', hu', hco',
        hsz', sid, hfind, hpg⟩
    · rw [if_neg hfull]
      dsimp only
      have hlt : KMap.size p.buf2frame < p.size := by
        have h9 := hw.card_eq
        have h10 := hw.card_le
        omega
      rcases loadStep_mem_ok hw hu hco hc hlt hv with
        ⟨p', hcalc, hwf', hu', hco', hsz', sid, hfind, hpg⟩
      exact ⟨PageFrame.new_with_arc v, p', hcalc, rfl, hwf', hu', hco',
        hsz', sid, hfind, hpg⟩

/-- The load path fails, leaving the pool as it was, when the store has
no data for `fid` (missing key or allocated-but-empty slot). -/
theorem loadStep_mem_none {α : Type} {ms : MemPool α} {p : BufferPool α}
    {fid : Nat}
    (h : KMap.find ms fid = some none ∨ KMap.find ms fid = none) :
    (loadStep (memOps α) ms p fid).1 = none ∧
    (loadStep (memOps α) ms p fid).2.1 = p := by
  unfold loadStep
  cases hfn : firstNone p.pages with
  | none => exact ⟨rfl, rfl⟩
  | some target =>
    dsimp only
    cases hf : KMap.find ms fid with
    | none =>
      rw [show (memOps α).get_frame_ref ms fid =
          (.error "No such frame", ms) from by
        show MemPool.get_frame_ref ms fid = _
        unfold MemPool.get_frame_ref
        rw [hf]]
      exact ⟨rfl, rfl⟩
    | some o =>
      cases o with
      | none =>
        rw [show (memOps α).get_frame_ref ms fid =
            (.error "Frame slot exists but is empty", ms) from by
          show MemPool.get_frame_ref ms fid = _
          unfold MemPool.get_frame_ref
          rw [hf]]
        exact ⟨rfl, rfl⟩
      | some a =>
        rcases h with h | h <;> rw [h] at hf <;> cases hf

/-- `get_page` for an uncached fid whose load must fail returns `None`. -/
theorem get_page_mem_none {α : Type} {p : BufferPool α} {ms : MemPool α}
    {fid : Nat} (hw : Wf p)
    (hc : KMap.find p.frame2buf fid = none)
    (hfid : ¬ fid > MemPool.size ms)
    (hv : KMap.find ms fid = some none ∨ KMap.find ms fid = none) :
    (get_page (memOps α) bottom_evictor ms p fid).1 = none := by
  unfold get_page
  rw [show (memOps α).size ms = MemPool.size ms from rfl, if_neg hfid, hc,
    if_neg (show ¬((none : Option Nat).isSome = true) from fun h => nomatch h)]
  cases hres : (if KMap.size p.frame2buf = p.size
      then evictStep (memOps α) bottom_evictor ms p
      else .ok (p, ms)) with
  | error bs1 => rfl
  | ok pr =>
    obtain ⟨p1, ms1⟩ := pr
    dsimp only
    have hv1 : KMap.find ms1 fid = some none ∨ KMap.find ms1 fid = none := by
      split at hres
      · rcases evictStep_ok hres with
          ⟨victim, vfid, vpage, hbe, hvp, hvf, hp1, hbs⟩
        have hfidne : fid ≠ vfid := by
          intro heq
          have hfb2 := hw.b2f_f2b (victim, vfid) (KMap.find_eq_some_mem hvf)
          rw [← heq, hc] at hfb2
          cases hfb2
        rcases hbs with h | ⟨u, hput⟩
        · rw [h]
          exact hv
        · have : ms1 = KMap.insert ms vfid (some vpage.data) := by
            have h2 : ((Except.ok () : Except String Unit),
                KMap.insert ms vfid (some vpage.data)) = (Except.ok u, ms1) :=
              hput
            injection h2 with _ h3
            exact h3.symm
          rw [this, KMap.find_insert_ne _ _ hfidne]
          exact hv
      · cases hres
        exact hv
    exact (loadStep_mem_none hv1).1

/-- `put_page` of value `v` for a fid whose stored content is already `v`
succeeds and preserves well-formedness, unpinnedness, and coherence. -/
theorem put_page_mem_ok {α : Type} {p : BufferPool α} {ms : MemPool α}
    {fid : Nat} {v : α} (hw : Wf p) (hu : Unpinned p) (hco : Coherent p ms)
    (hnd : (KMap.keys ms).Nodup) (hpos : 0 < p.size)
    (hfid : ¬ fid > MemPool.size ms)
    (hv : KMap.find ms fid = some (some v)) :
    ∃ p', put_page (memOps α) bottom_evictor ms p fid v = (.ok (), p', ms) ∧
      Wf p' ∧ Unpinned p' ∧ Coherent p' ms ∧ p'.size = p.size := by
  rcases get_page_mem_ok hw hu hco hnd hpos hfid hv with
    ⟨pg, p1, hcalc, hdata, hw1, hu1, hco1, hsz1, sid, hfind, hpg⟩
  unfold put_page
  rw [hcalc]
  dsimp only
  rw [hfind]
  dsimp only
  rw [hpg]
  dsimp only
  have hsidlt : sid < p1.pages.length := getD_isSome_lt hpg
  refine ⟨_, rfl, wf_set_occupied hw1 hpg _, ?_, ?_, hsz1⟩
  · intro sid' pg' hpg'
    dsimp only at hpg'
    by_cases hs : sid' = sid
    · subst hs
      rw [getD_set_self hsidlt] at hpg'
      cases hpg'
      exact hu1 sid' pg hpg
    · rw [getD_set_ne _ (fun h => hs h.symm)] at hpg'
      exact hu1 sid' pg' hpg'
  · intro fid' sid' hfind' pg' hpg'
    dsimp only at hfind' hpg'
    by_cases hs : sid' = sid
    · subst hs
      rw [getD_set_self hsidlt] at hpg'
      cases hpg'
      have hfe : fid' = fid := by
        have h1 := hw1.f2b_b2f (fid', sid') (KMap.find_eq_some_mem hfind')
        have h2 := hw1.f2b_b2f (fid, sid') (KMap.find_eq_some_mem hfind)
        rw [h2] at h1
        injection h1 with h3
        exact h3.symm
      subst hfe
      exact hv
    · rw [getD_set_ne _ (fun h => hs h.symm)] at hpg'
      exact hco1 fid' sid' hfind' pg' hpg'

theorem unpinned_of_check {α : Type} {p : BufferPool α}
    (h : unpinnedCheck p = true) : Unpinned p := by
  intro sid pg hpg
  have hmem : some pg ∈ p.pages := by
    rw [List.getD_eq_getElem?_getD] at hpg
    cases hget : p.pages[sid]? with
    | none => rw [hget] at hpg; cases hpg
    | some o =>
      rw [hget] at hpg
      cases hpg
      exact List.getElem?_mem hget
  have h2 := List.all_eq_true.1 h (some pg) hmem
  simp only [beq_iff_eq] at h2
  exact h2

theorem coherent_of_check {α : Type} [DecidableEq α] {p : BufferPool α}
    {ms : MemPool α} (h : coherentCheck p ms = true) : Coherent p ms := by
  intro fid sid hfind pg hpg
  have hmem := KMap.find_eq_some_mem hfind
  have h2 := List.all_eq_true.1 h (fid, sid) hmem
  dsimp only at h2
  rw [hpg] at h2
  exact of_decide_eq_true h2

/-- C10: for `fid` exactly equal to the backing size (with no such key in
the store), `get_page` is not rejected by the bounds check (`fid > size`
is strict), so the miss path runs: on a full pool an eviction happens —
both maps and the recency tracker each lose one entry — and then the load
of `fid` fails, so `get_page` returns `None` with the eviction's mutations
retained. -/
theorem claim_C10_off_by_one_bound (α : Type) (ms : MemPool α)
    (p : BufferPool α) (hw : Wf p) (hu : Unpinned p)
    (hfull : KMap.size p.frame2buf = p.size) (hpos : 0 < p.size)
    (hmiss : KMap.find p.frame2buf (MemPool.size ms) = none)
    (hnokey : KMap.find ms (MemPool.size ms) = none) :
    (get_page (memOps α) bottom_evictor ms p (MemPool.size ms)).1 = none ∧
    KMap.size (get_page (memOps α) bottom_evictor ms p
      (MemPool.size ms)).2.1.buf2frame + 1 = KMap.size p.buf2frame ∧
    KMap.size (get_page (memOps α) bottom_evictor ms p
      (MemPool.size ms)).2.1.frame2buf + 1 = KMap.size p.frame2buf ∧
    (get_page (memOps α) bottom_evictor ms p
      (MemPool.size ms)).2.1.lru.order.length + 1 = p.lru.order.length := by
  unfold get_page
  rw [show (memOps α).size ms = MemPool.size ms from rfl,
    if_neg (lt_irrefl (MemPool.size ms)), hmiss,
    if_neg (show ¬((none : Option Nat).isSome = true) from fun h => nomatch h),
    if_pos hfull]
  have hposb : 0 < KMap.size p.buf2frame := by
    have h9 := hw.card_eq
    omega
  rcases evictStep_mem ms hw hu hposb with
    ⟨victim, vfid, vpage, ms', hvf, hvp, hvmem, hevEq, hms'⟩
  rw [hevEq]
  dsimp only
  have hfb2 : KMap.find p.frame2buf vfid = some victim :=
    hw.b2f_f2b (victim, vfid) (KMap.find_eq_some_mem hvf)
  have hfidne : MemPool.size ms ≠ vfid := by
    intro heq
    rw [← heq, hmiss] at hfb2
    cases hfb2
  have hload : KMap.find ms' (MemPool.size ms) = none := by
    rcases hms' with h | h
    · rw [h]; exact hnokey
    · rw [h, KMap.find_insert_ne _ _ hfidne]; exact hnokey
  rcases loadStep_mem_none (Or.inr hload) with ⟨h1, h2⟩
  refine ⟨h1, ?_, ?_, ?_⟩
  · rw [h2]
    dsimp only
    exact KMap.length_eraseKey hw.nodup_b2f hvf
  · rw [h2]
    dsimp only
    exact KMap.length_eraseKey hw.nodup_f2b hfb2
  · rw [h2]
    dsimp only
    unfold UniqueStack.delete
    dsimp only
    have hle := List.length_erase_of_mem hvmem
    have hp := List.length_pos.2 (List.ne_nil_of_mem hvmem)
    omega

theorem claim_C10_witness :
    (get_page (memOps Nat) bottom_evictor [(0, some 4)]
        ⟨1, [some ⟨4, 0, false⟩], [(0, 0)], [(0, 0)], ⟨[0]⟩⟩ 1).1 = none ∧
    KMap.size (get_page (memOps Nat) bottom_evictor [(0, some 4)]
        ⟨1, [some ⟨4, 0, false⟩], [(0, 0)], [(0, 0)], ⟨[0]⟩⟩ 1).2.1.buf2frame +
      1 = KMap.size ([(0, 0)] : KMap Nat) ∧
    KMap.size (get_page (memOps Nat) bottom_evictor [(0, some 4)]
        ⟨1, [some ⟨4, 0, false⟩], [(0, 0)], [(0, 0)], ⟨[0]⟩⟩ 1).2.1.frame2buf +
      1 = KMap.size ([(0, 0)] : KMap Nat) ∧
    (get_page (memOps Nat) bottom_evictor [(0, some 4)]
        ⟨1, [some ⟨4, 0, false⟩], [(0, 0)], [(0, 0)], ⟨[0]⟩⟩
        1).2.1.lru.order.length + 1 = 1 :=
  claim_C10_off_by_one_bound Nat [(0, some 4)]
    ⟨1, [some ⟨4, 0, false⟩], [(0, 0)], [(0, 0)], ⟨[0]⟩⟩ (by decide)
    (unpinned_of_check rfl) rfl (by decide) rfl rfl

/-- Iterating a coherent pool yields the stored values until the first
frame id whose load fails, where collection stops. -/
theorem iterRun_mem {α : Type} {ms : MemPool α} {k total : Nat}
    (v : Nat → α) (hnd : (KMap.keys ms).Nodup)
    (hks : ∀ j, j < k → KMap.find ms j = some (some (v j)))
    (hk : KMap.find ms k = some none ∨ KMap.find ms k = none)
    (hktotal : k < total) (hsz : total ≤ MemPool.size ms) :
    ∀ (n cur : Nat) (p : BufferPool α), k - cur = n → cur ≤ k → Wf p →
      Unpinned p → Coherent p ms → 0 < p.size →
      iterRun (memOps α) bottom_evictor ms p cur total =
        (List.range' cur (k - cur)).map v := by
  intro n
  induction n with
  | zero =>
    intro cur p hn hck hw hu hco hpos
    have hck' : cur = k := by omega
    subst hck'
    have hc : KMap.find p.frame2buf cur = none := by
      cases hf : KMap.find p.frame2buf cur with
      | none => rfl
      | some sid =>
        have hb := hw.f2b_b2f (cur, sid) (KMap.find_eq_some_mem hf)
        rcases Option.isSome_iff_exists.1
          (hw.occ (sid, cur) (KMap.find_eq_some_mem hb)) with ⟨pg, hpg⟩
        have := hco cur sid hf pg hpg
        rcases hk with h | h <;> rw [h] at this <;> cases this
    have hnone := get_page_mem_none hw hc
      (show ¬ cur > MemPool.size ms by omega) hk
    unfold iterRun
    rw [dif_neg (show ¬ total ≤ cur by omega)]
    cases hg : get_page (memOps α) bottom_evictor ms p cur with
    | mk r st =>
      rw [hg] at hnone
      cases r with
      | none =>
        rw [hn]
        rfl
      | some pg => cases hnone
  | succ n ih =>
    intro cur p hn hck hw hu hco hpos
    have hcur : cur < k := by omega
    rcases get_page_mem_ok hw hu hco hnd hpos
      (show ¬ cur > MemPool.size ms by omega) (hks cur hcur) with
      ⟨pg, p', hcalc, hdata, hw', hu', hco', hsz', _⟩
    unfold iterRun
    rw [dif_neg (show ¬ total ≤ cur by omega), hcalc]
    dsimp only
    have hrec := ih (cur + 1) p' (by omega) (by omega) hw' hu' hco'
      (by omega)
    rw [hrec]
    have hrange : k - cur = (k - (cur + 1)) + 1 := by omega
    rw [hrange, List.range'_succ, List.map_cons, hdata]

/-- C9: from a fresh pool over a backing store whose frames below `k` load
values `v 0, …, v (k-1)` but whose frame `k < size` fails to load (an
allocated-but-never-written `MemPool` slot), a full iteration terminates
at index `k`: it yields exactly the data for frame ids `0..k` (exclusive)
and does not skip over `k` to yield later frames. -/
theorem claim_C9_iteration_stops_at_failure (α : Type) (ms : MemPool α)
    (capacity k : Nat) (v : Nat → α) (hnd : (KMap.keys ms).Nodup)
    (hcap : 0 < capacity) (hk : k < MemPool.size ms)
    (hks : ∀ j, j < k → KMap.find ms j = some (some (v j)))
    (hke : KMap.find ms k = some none) :
    iterRun (memOps α) bottom_evictor ms (BufferPool.new α capacity) 0
      (MemPool.size ms) = (List.range k).map v := by
  have h := iterRun_mem v hnd hks (Or.inl hke) hk (Nat.le_refl _) k 0
    (BufferPool.new α capacity) (by omega) (by omega) (wf_new capacity)
    (fun sid pg hpg => by
      unfold BufferPool.new at hpg
      dsimp only at hpg
      rw [List.getD_eq_getElem?_getD] at hpg
      cases hget : (List.replicate capacity
          (none : Option (PageFrame α)))[sid]? with
      | none => rw [hget] at hpg; cases hpg
      | some o =>
        rw [hget] at hpg
        cases hpg
        have hmem := List.getElem?_mem hget
        exact Option.noConfusion (List.eq_of_mem_replicate hmem))
    (fun fid sid hf => by cases hf) hcap
  rw [h]
  rw [Nat.sub_zero, List.range_eq_range']

theorem claim_C9_witness :
    (KMap.keys ([(0, some 10), (1, none), (2, some 30)] :
      MemPool Nat)).Nodup ∧
    iterRun (memOps Nat) bottom_evictor
      [(0, some 10), (1, none), (2, some 30)] (BufferPool.new Nat 1) 0
      (MemPool.size ([(0, some 10), (1, none), (2, some 30)] :
        MemPool Nat)) = (List.range 1).map (fun _ => 10) := by
  constructor
  · decide
  · exact claim_C9_iteration_stops_at_failure Nat
      [(0, some 10), (1, none), (2, some 30)] 1 1 (fun _ => 10) (by decide)
      (by decide) (by decide) (by decide) rfl

/-! ### C7: the stride mapper -/

/-- Index arithmetic for the stride mapper: a frame index below
`⌈len / stride⌉` addresses an element of the sequence. -/
theorem stride_lt {s i len : Nat} (hs : 0 < s)
    (hi : i < (len + s - 1) / s) : i * s < len := by
  have h1 : i + 1 ≤ (len + s - 1) / s := hi
  have h2 := (Nat.le_div_iff_mul_le hs).1 h1
  have h3 : (i + 1) * s = i * s + s := Nat.succ_mul i s
  omega

theorem stride_lt_rev {s k len : Nat} (hs : 0 < s) (hlen : 0 < len)
    (hk : k * s < len) : k < (len + s - 1) / s := by
  have h2 : (k + 1) * s ≤ len + s - 1 := by
    have h3 : (k + 1) * s = k * s + s := Nat.succ_mul k s
    omega
  exact (Nat.le_div_iff_mul_le hs).2 h2

/-- `MemPool::resize` from the empty pool allocates exactly the keys
`0, …, n-1`, all empty. -/
theorem resize_nil (α : Type) (n : Nat) :
    (∀ k, k < n → KMap.find ((MemPool.resize ([] : MemPool α) n).2) k =
      some none) ∧
    (∀ k, n ≤ k → KMap.find ((MemPool.resize ([] : MemPool α) n).2) k =
      none) ∧
    ((MemPool.resize ([] : MemPool α) n).2).length = n ∧
    (KMap.keys ((MemPool.resize ([] : MemPool α) n).2)).Nodup := by
  have he : ∀ m : Nat, (MemPool.resize ([] : MemPool α) m).2 =
      (List.range m).foldl
        (fun acc i => KMap.insert acc i (none : Option α)) [] := by
    intro m
    show (List.range m).foldl
      (fun acc i => KMap.insert acc (0 + i) (none : Option α)) [] = _
    simp only [Nat.zero_add]
  rw [he]
  induction n with
  | zero =>
    refine ⟨fun k hk => absurd hk (by omega), fun k _ => rfl, rfl, ?_⟩
    exact List.nodup_nil
  | succ n ih =>
    obtain ⟨ih1, ih2, ih3, ih4⟩ := ih
    rw [List.range_succ, List.foldl_append]
    simp only [List.foldl_cons, List.foldl_nil]
    have hfn : KMap.find ((List.range n).foldl
        (fun acc i => KMap.insert acc i (none : Option α)) []) n =
        none := ih2 n (Nat.le_refl n)
    refine ⟨?_, ?_, ?_, ?_⟩
    · intro k hk
      by_cases hkn : k = n
      · subst hkn
        exact KMap.find_insert_self _ _ _
      · rw [KMap.find_insert_ne _ _ hkn]
        exact ih1 k (by omega)
    · intro k hk
      rw [KMap.find_insert_ne _ _ (by omega)]
      exact ih2 k (by omega)
    · rw [KMap.length_insert_of_none _ hfn, ih3]
    · exact KMap.keys_insert_nodup ih4 n none

/-- Phase 1 of `SlabMapper::flush` over a `MemPool` succeeds, writing
`seq[i * stride]` at each listed frame id holding such an element. -/
theorem slabPhase1_mem {α : Type} (stride : Nat) (seq : List α) :
    ∀ (l : List Nat) (ms : MemPool α), l.Nodup →
      (∀ k ∈ l, (KMap.find ms k).isSome) →
      ∃ ms2, slabPhase1 (memOps α) stride seq ms l = .ok ms2 ∧
        (∀ k, k ∉ l → KMap.find ms2 k = KMap.find ms k) ∧
        (∀ k ∈ l, ∀ d, seq.get? (k * stride) = some d →
          KMap.find ms2 k = some (some d)) ∧
        (∀ k ∈ l, seq.get? (k * stride) = none →
          KMap.find ms2 k = KMap.find ms k) ∧
        ms2.length = ms.length ∧
        ((KMap.keys ms).Nodup → (KMap.keys ms2).Nodup) := by
  intro l
  induction l with
  | nil =>
    intro ms _ _
    exact ⟨ms, rfl, fun k _ => rfl, fun k hk => absurd hk (List.not_mem_nil k),
      fun k hk => absurd hk (List.not_mem_nil k), rfl, fun h => h⟩
  | cons i rest ih =>
    intro ms hnd hsome
    rw [List.nodup_cons] at hnd
    unfold slabPhase1
    cases hq : seq.get? (i * stride) with
    | none =>
      rcases ih ms hnd.2
          (fun k hk => hsome k (List.mem_cons_of_mem i hk)) with
        ⟨ms2, heq, huntouched, hset, hnone, hlen, hnodup⟩
      refine ⟨ms2, heq, ?_, ?_, ?_, hlen, hnodup⟩
      · intro k hk
        exact huntouched k (fun h => hk (List.mem_cons_of_mem i h))
      · intro k hk d hd
        rcases List.mem_cons.1 hk with hk | hk
        · subst hk
          rw [hq] at hd
          cases hd
        · exact hset k hk d hd
      · intro k hk hd
        rcases List.mem_cons.1 hk with hk | hk
        · subst hk
          exact huntouched k hnd.1
        · exact hnone k hk hd
    | some d =>
      dsimp only
      rw [show (memOps α).put_frame ms i d =
        (.ok (), KMap.insert ms i (some d)) from rfl]
      dsimp only
      have hsomeA : ∀ k ∈ rest,
          (KMap.find (KMap.insert ms i (some d)) k).isSome := by
        intro k hk
        have hne : k ≠ i := fun h => hnd.1 (h ▸ hk)
        rw [KMap.find_insert_ne _ _ hne]
        exact hsome k (List.mem_cons_of_mem i hk)
      rcases ih (KMap.insert ms i (some d)) hnd.2 hsomeA with
        ⟨ms2, heq, huntouched, hset, hnone, hlen, hnodup⟩
      refine ⟨ms2, heq, ?_, ?_, ?_, ?_, ?_⟩
      · intro k hk
        have hki : k ≠ i := fun h => hk (h ▸ List.mem_cons_self i rest)
        rw [huntouched k (fun h => hk (List.mem_cons_of_mem i h)),
          KMap.find_insert_ne _ _ hki]
      · intro k hk d' hd'
        rcases List.mem_cons.1 hk with hk | hk
        · subst hk
          rw [hq] at hd'
          injection hd' with hdd
          subst hdd
          rw [huntouched k hnd.1]
          exact KMap.find_insert_self _ _ _
        · exact hset k hk d' hd'
      · intro k hk hd'
        rcases List.mem_cons.1 hk with hk | hk
        · subst hk
          rw [hq] at hd'
          cases hd'
        · have hki : k ≠ i := fun h => hnd.1 (h ▸ hk)
          rw [hnone k hk hd', KMap.find_insert_ne _ _ hki]
      · rw [hlen, KMap.length_insert_of_isSome _
          (hsome i (List.mem_cons_self i rest))]
      · intro hn
        exact hnodup (KMap.keys_insert_nodup hn i (some d))

/-- Phase 2 of `SlabMapper::flush` succeeds (no collected errors) on a
coherent pool of positive capacity, preserving coherence. -/
theorem slabPhase2_mem {α : Type} (stride : Nat) (seq : List α)
    (ms : MemPool α) (hnd : (KMap.keys ms).Nodup) :
    ∀ (l : List Nat) (p : BufferPool α), Wf p → Unpinned p →
      Coherent p ms → 0 < p.size →
      (∀ i ∈ l, ∀ d, seq.get? (i * stride) = some d →
        KMap.find ms i = some (some d) ∧ ¬ i > MemPool.size ms) →
      ∃ p', slabPhase2 (memOps α) stride seq ms p l = ([], p', ms) ∧
        Wf p' ∧ Unpinned p' ∧ Coherent p' ms ∧ p'.size = p.size := by
  intro l
  induction l with
  | nil =>
    intro p hw hu hco hpos _
    exact ⟨p, rfl, hw, hu, hco, rfl⟩
  | cons i rest ih =>
    intro p hw hu hco hpos hgood
    unfold slabPhase2
    cases hq : seq.get? (i * stride) with
    | none =>
      exact ih p hw hu hco hpos
        (fun j hj => hgood j (List.mem_cons_of_mem i hj))
    | some d =>
      rcases hgood i (List.mem_cons_self i rest) d hq with ⟨hfind, hbound⟩
      rcases put_page_mem_ok hw hu hco hnd hpos hbound hfind with
        ⟨p1, hcalc, hw1, hu1, hco1, hsz1⟩
      dsimp only
      rw [hcalc]
      dsimp only
      rcases ih p1 hw1 hu1 hco1 (by omega)
          (fun j hj => hgood j (List.mem_cons_of_mem i hj)) with
        ⟨p', heq, hw', hu', hco', hsz'⟩
      exact ⟨p', heq, hw', hu', hco', by omega⟩

/-- A fresh pool holds no pinned frame. -/
theorem unpinned_new (α : Type) (n : Nat) : Unpinned (BufferPool.new α n) := by
  intro sid pg hpg
  unfold BufferPool.new at hpg
  dsimp only at hpg
  rw [List.getD_eq_getElem?_getD] at hpg
  cases hget : (List.replicate n (none : Option (PageFrame α)))[sid]? with
  | none => rw [hget] at hpg; cases hpg
  | some o =>
    rw [hget] at hpg
    cases hpg
    have hmem := List.getElem?_mem hget
    exact Option.noConfusion (List.eq_of_mem_replicate hmem)

/-- A fresh pool caches nothing, hence coheres with any store. -/
theorem coherent_new (α : Type) (n : Nat) (ms : MemPool α) :
    Coherent (BufferPool.new α n) ms := by
  intro fid sid hf
  exact Option.noConfusion hf

/-- A failing `put_page` on the head index makes phase 2 of
`SlabMapper::flush` report that index. -/
theorem slabPhase2_head_err {σ α : Type} {fp : FramePoolOps σ α}
    {stride : Nat} {seq : List α} {bs bs1 : σ} {p p1 : BufferPool α}
    {i : Nat} {d : α} {e : BufferPoolErrors} (rest : List Nat)
    (hd : seq.get? (i * stride) = some d)
    (hpp : put_page fp bottom_evictor bs p i d = (.error e, p1, bs1)) :
    ∃ errs p2 bs2, slabPhase2 fp stride seq bs p (i :: rest) =
      (i :: errs, p2, bs2) := by
  unfold slabPhase2
  rw [hd]
  dsimp only
  rw [hpp]
  dsimp only
  exact ⟨_, _, _, rfl⟩

/-- C7: for every sequence `seq` and stride ≥ 1 (`SlabMapper::new` over a
fresh `MemPool` and a fresh pool), if `SlabMapper::flush(seq)` returns `Ok`
then `SlabMapper::get(idx)` returns the data of frame `⌊idx/stride⌋`, which
is `seq[⌊idx/stride⌋ * stride]`, for every `idx` whose frame id was
allocated; in particular `get(i) = seq[i]` for every multiple `i` of the
stride with `i < |seq|`. -/
theorem claim_C7_slab_mapper (α : Type) (capacity stride : Nat)
    (seq : List α) (p' : BufferPool α) (ms : MemPool α) (hs : 1 ≤ stride)
    (hok : slabFlush (memOps α) stride ([] : MemPool α)
      (BufferPool.new α capacity) seq = (.ok (), p', ms)) :
    (∀ idx, idx / stride < (seq.length + stride - 1) / stride →
      (slabGet (memOps α) ms p' stride idx).1 =
        seq.get? (idx / stride * stride)) ∧
    (∀ i, i < seq.length → i % stride = 0 →
      (slabGet (memOps α) ms p' stride i).1 = seq.get? i) := by
  by_cases hemp : seq.isEmpty
  · have hseq : seq = [] := List.isEmpty_iff.1 hemp
    subst hseq
    have h0 : (List.length ([] : List α) + stride - 1) / stride = 0 :=
      Nat.div_eq_of_lt (by simp only [List.length_nil]; omega)
    constructor
    · intro idx hidx
      rw [h0] at hidx
      exact absurd hidx (Nat.not_lt_zero _)
    · intro i hi _
      simp only [List.length_nil] at hi
      exact absurd hi (by omega)
  · have hs0 : 0 < stride := by omega
    have hlen : 0 < seq.length := by
      cases seq with
      | nil => exact absurd rfl hemp
      | cons a t => simp
    have hreq : 1 ≤ (seq.length + stride - 1) / stride :=
      (Nat.le_div_iff_mul_le hs0).2 (by omega)
    unfold slabFlush at hok
    rw [if_neg hemp] at hok
    dsimp only at hok
    have hens : ensure_allocation (memOps α) ([] : MemPool α)
        (BufferPool.new α capacity) ((seq.length + stride - 1) / stride) =
        (.ok (), BufferPool.new α capacity,
          (MemPool.resize ([] : MemPool α)
            ((seq.length + stride - 1) / stride)).2) := rfl
    rw [hens] at hok
    dsimp only at hok
    obtain ⟨hres1, hres2, hres3, hres4⟩ :=
      resize_nil α ((seq.length + stride - 1) / stride)
    obtain ⟨ms2, hp1eq, hp1untouched, hp1set, hp1none, hp1len, hp1nodup⟩ :=
      slabPhase1_mem stride seq
        (List.range ((seq.length + stride - 1) / stride))
        (MemPool.resize ([] : MemPool α)
          ((seq.length + stride - 1) / stride)).2
        (List.nodup_range _)
        (fun k hk => by rw [hres1 k (List.mem_range.1 hk)]; rfl)
    rw [hp1eq] at hok
    dsimp only at hok
    have hms2size : MemPool.size ms2 = (seq.length + stride - 1) / stride := by
      show ms2.length = _
      rw [hp1len, hres3]
    have hms2nodup : (KMap.keys ms2).Nodup := hp1nodup hres4
    by_cases hcap : capacity = 0
    · subst hcap
      obtain ⟨m, hm⟩ : ∃ m, (seq.length + stride - 1) / stride = m + 1 :=
        ⟨(seq.length + stride - 1) / stride - 1, by omega⟩
      rw [hm, List.range_succ_eq_map] at hok
      obtain ⟨d0, hd0⟩ : ∃ d, seq.get? (0 * stride) = some d := by
        rw [Nat.zero_mul]
        cases seq with
        | nil => exact absurd rfl hemp
        | cons a t => exact ⟨a, rfl⟩
      have hg0 : get_page (memOps α) bottom_evictor ms2
          (BufferPool.new α 0) 0 = (none, BufferPool.new α 0, ms2) := by
        unfold get_page
        rw [show ((memOps α).size ms2) = MemPool.size ms2 from rfl]
        rw [if_neg (show ¬ 0 > MemPool.size ms2 from by omega)]
        rw [if_neg (show
          ¬ ((KMap.find (BufferPool.new α 0).frame2buf 0).isSome = true)
          from fun h => Bool.noConfusion h)]
        rw [if_pos (show KMap.size (BufferPool.new α 0).frame2buf =
          (BufferPool.new α 0).size from rfl)]
        rw [show evictStep (memOps α) bottom_evictor ms2
          (BufferPool.new α 0) = Except.error ms2 from rfl]
      have hpp : put_page (memOps α) bottom_evictor ms2
          (BufferPool.new α 0) 0 d0 =
          (.error .NoPageAvailable, BufferPool.new α 0, ms2) := by
        unfold put_page
        rw [hg0]
      obtain ⟨errs, p2r, bs2r, hph2⟩ :=
        slabPhase2_head_err (List.map Nat.succ (List.range m)) hd0 hpp
      rw [hph2] at hok
      dsimp only at hok
      injection hok with h1 h2
      exact Except.noConfusion h1
    · have hcap0 : 0 < capacity := by omega
      have hgood : ∀ i ∈ List.range ((seq.length + stride - 1) / stride),
          ∀ d, seq.get? (i * stride) = some d →
          KMap.find ms2 i = some (some d) ∧ ¬ i > MemPool.size ms2 := by
        intro i hi d hd
        have hi' := List.mem_range.1 hi
        refine ⟨hp1set i hi d hd, ?_⟩
        rw [hms2size]
        omega
      obtain ⟨p2, hph2, hw2, hu2, hco2, hsz2⟩ :=
        slabPhase2_mem stride seq ms2 hms2nodup
          (List.range ((seq.length + stride - 1) / stride))
          (BufferPool.new α capacity) (wf_new capacity)
          (unpinned_new α capacity) (coherent_new α capacity ms2)
          hcap0 hgood
      rw [hph2] at hok
      dsimp only at hok
      injection hok with h1 h2
      injection h2 with h2a h2b
      subst h2a
      subst h2b
      have hsz2' : p2.size = capacity := hsz2
      have hmain : ∀ idx,
          idx / stride < (seq.length + stride - 1) / stride →
          (slabGet (memOps α) ms2 p2 stride idx).1 =
            seq.get? (idx / stride * stride) := by
        intro idx hidx
        have hlt : idx / stride * stride < seq.length := stride_lt hs0 hidx
        obtain ⟨d, hd⟩ : ∃ d, seq.get? (idx / stride * stride) = some d :=
          ⟨seq.get ⟨idx / stride * stride, hlt⟩, List.get?_eq_get hlt⟩
        have hfind : KMap.find ms2 (idx / stride) = some (some d) :=
          hp1set (idx / stride) (List.mem_range.2 hidx) d hd
        have hfid : ¬ idx / stride > MemPool.size ms2 := by
          rw [hms2size]
          omega
        obtain ⟨pg, p3, hcalc, hdata, _, _, _, _, _, _, _⟩ :=
          get_page_mem_ok hw2 hu2 hco2 hms2nodup (by omega) hfid hfind
        unfold slabGet
        dsimp only
        rw [hcalc]
        dsimp only
        rw [hd]
        simp only [Option.map_some']
        rw [hdata]
      refine ⟨hmain, ?_⟩
      intro i hi hmod
      have hks : i / stride * stride = i :=
        Nat.div_mul_cancel (Nat.dvd_of_mod_eq_zero hmod)
      have hik : i / stride < (seq.length + stride - 1) / stride :=
        stride_lt_rev hs0 hlen (by rw [hks]; exact hi)
      have h := hmain i hik
      rw [hks] at h
      exact h

/-- C7 witness: capacity 2, stride 2, `seq = [10, 20, 30]`; after a
successful flush, `get(2)` returns `seq[2] = 30`. -/
theorem claim_C7_witness :
    1 ≤ 2 ∧
    (slabGet (memOps Nat)
        (slabFlush (memOps Nat) 2 [] (BufferPool.new Nat 2) [10, 20, 30]).2.2
        (slabFlush (memOps Nat) 2 [] (BufferPool.new Nat 2) [10, 20, 30]).2.1
        2 2).1 = List.get? [10, 20, 30] 2 :=
  ⟨by decide,
    (claim_C7_slab_mapper Nat 2 2 [10, 20, 30]
      (slabFlush (memOps Nat) 2 [] (BufferPool.new Nat 2) [10, 20, 30]).2.1
      (slabFlush (memOps Nat) 2 [] (BufferPool.new Nat 2) [10, 20, 30]).2.2
      (by decide) rfl).2 2 (by decide) (by decide)⟩

theorem claim_C6_amended_witness :
    Wf (⟨1, [some ⟨(4 : Nat), 0, true⟩], [(0, 0)], [(0, 0)], ⟨[0]⟩⟩ :
      BufferPool Nat) ∧
    (flush_all (memOps Nat) [(0, some 7)]
        ⟨1, [some ⟨4, 0, true⟩], [(0, 0)], [(0, 0)], ⟨[0]⟩⟩).2.1.pages.getD
      0 none = some ⟨4, 0, false⟩ := by
  refine ⟨by decide, ?_⟩
  exact (claim_C6_amended (MemPool Nat) Nat (memOps Nat) [(0, some 7)]
      ⟨1, [some ⟨4, 0, true⟩], [(0, 0)], [(0, 0)], ⟨[0]⟩⟩
      (by decide)).2.2.2.1 rfl (0, 0) (by decide) ⟨4, 0, true⟩ rfl

end Bufferpool
